import Mathlib

/-!
Verification of the Orion agent-platform backend core against its design
specification.  The Python services are shallowly embedded as executable Lean
definitions:

* `app/ai_models/utils.py` — JSON configs (`JVal`), secret redaction
  (`applyRedaction`) and partial-patch merging (`mergeObjs`).
* `app/agent_networks/services.py` — network spec validation (`validateSpec`),
  the three-color depth-first acyclicity check (`dfsA`/`dfsL`/`dfsTop`,
  `assertAcyclic`), node reference checking (`ensureNodeRef`) and the
  `invoke` dispatch (`invokeNetwork`).
* `app/agents/services.py` — soft-delete-aware lookups and the tool-policy
  allow-list computation of `_run_langgraph_react`.
* `app/agent_tools/adapters/*` — the adapter registry, config validation and
  the cap-clamping performed by `sql.select` and `vector.similarity_search`.

Python dicts are modelled as association lists with unique keys, database
rows as structures with an optional deletion timestamp, raised exceptions as
`Except` errors, and the recursive DFS is given explicit fuel (proved
sufficient below).
-/

/-- JSON-like values, as stored in `config_json` blobs.  `null` models Python
`None`; objects are insertion-ordered association lists, as Python dicts. -/
inductive JVal where
  | null : JVal
  | str (s : String) : JVal
  | num (n : Int) : JVal
  | boolean (b : Bool) : JVal
  | obj (fields : List (String × JVal)) : JVal
  | arr (items : List JVal) : JVal
deriving Repr

/-- The fixed redaction sentinel `REDACTED = "__REDACTED__"` of
`app/ai_models/utils.py`. -/
def redactedJ : JVal := JVal.str "__REDACTED__"

/-- Python `v == REDACTED`: only the sentinel string compares equal to the
sentinel (no other JSON value equals a `str` in Python). -/
def isRedactedSentinel : JVal → Bool
  | JVal.str s => s = "__REDACTED__"
  | _ => false

/-- Whether a value is Python `None`. -/
def isNullJ : JVal → Bool
  | JVal.null => true
  | _ => false

/-- Whether a value is a Python dict. -/
def isObjJ : JVal → Bool
  | JVal.obj _ => true
  | _ => false

/-- Dict lookup `d.get(k)` on an association list (first match). -/
def objGet (fs : List (String × JVal)) (k : String) : Option JVal :=
  match fs.find? (fun p => p.1 = k) with
  | some p => some p.2
  | none => none

/-- Dict assignment `d[k] = v`: replace in place when the key is present,
append otherwise (Python dict insertion-order semantics). -/
def objSet (fs : List (String × JVal)) (k : String) (v : JVal) : List (String × JVal) :=
  if fs.any (fun p => p.1 = k) then
    fs.map (fun p => if p.1 = k then (k, v) else p)
  else
    fs ++ [(k, v)]

mutual
/-- Well-formedness of a JSON value: every nested object has pairwise
distinct keys, as is the case for every value decoded from a Python dict. -/
def jwf : JVal → Bool
  | JVal.obj fs => jwfFields fs
  | JVal.arr items => jwfItems items
  | _ => true

/-- Field-list well-formedness: unique keys, recursively well-formed. -/
def jwfFields : List (String × JVal) → Bool
  | [] => true
  | (k, v) :: rest =>
      (!rest.any (fun p => p.1 = k)) && jwf v && jwfFields rest

/-- Array-item well-formedness. -/
def jwfItems : List JVal → Bool
  | [] => true
  | v :: rest => jwf v && jwfItems rest
end

/-- Python `x is not None` on an optional dict-lookup result: the key is
present and its value is not `None`. -/
def optIsNonNull : Option JVal → Bool
  | some d => !(isNullJ d)
  | none => false

mutual
/-- One patch entry of `merge_partial_config`'s inner `_merge(dst, src)`
(`app/ai_models/utils.py:53-62`): a dict patch value meeting a dict
destination value merges recursively; a dict patch value meeting anything
else overwrites (a dict never equals the sentinel string in Python); a
non-dict patch value equal to the redaction sentinel is skipped when the
destination holds a non-`None` value, and every other patch value
overwrites. -/
def mergeField (dst : List (String × JVal)) (k : String) : JVal → List (String × JVal)
  | JVal.obj so =>
      match objGet dst k with
      | some (JVal.obj dobj) => objSet dst k (JVal.obj (mergeObjs dobj so))
      | _ => objSet dst k (JVal.obj so)
  | v => if isRedactedSentinel v && optIsNonNull (objGet dst k) then dst else objSet dst k v

/-- The `for k, v in src.items()` iteration of `_merge(dst, src)`
(`app/ai_models/utils.py:52-66`).  The Python function mutates a deep copy
of the existing config; the embedding returns the resulting dict. -/
def mergeObjs (dst : List (String × JVal)) : List (String × JVal) → List (String × JVal)
  | [] => dst
  | (k, v) :: rest => mergeObjs (mergeField dst k v) rest
end

/-- Embedding of `merge_partial_config(existing_config, patch_config,
redaction_map)`.  The `redaction_map` argument is accepted but unused, as in
the source. -/
def mergePartialConfig (existing patch : List (String × JVal))
    (_redactionMap : List (List String)) : List (String × JVal) :=
  mergeObjs existing patch

/-- Path lookup along a dot-path (already split into components). -/
def getPath : JVal → List String → Option JVal
  | v, [] => some v
  | JVal.obj fs, k :: rest =>
      match objGet fs k with
      | some v => getPath v rest
      | none => none
  | _, _ :: _ => none

/-- Whether the cursor walk of `apply_redaction` reaches the final path
component inside a dict (in which case exactly one assignment happens);
otherwise the walk `break`s and the config is left unchanged. -/
def canRedact : JVal → List String → Bool
  | _, [] => false
  | JVal.obj fs, [k] => (objGet fs k).isSome
  | JVal.obj fs, k :: rest =>
      match objGet fs k with
      | some v => canRedact v rest
      | none => false
  | _, _ :: _ => false

/-- The single assignment `cursor[part] = REDACTED` performed by
`apply_redaction` when the walk succeeds. -/
def updateRedact : JVal → List String → JVal
  | v, [] => v
  | JVal.obj fs, [k] => JVal.obj (objSet fs k redactedJ)
  | JVal.obj fs, k :: rest =>
      match objGet fs k with
      | some v => JVal.obj (objSet fs k (updateRedact v rest))
      | none => JVal.obj fs
  | v, _ :: _ => v

/-- One path of `apply_redaction` (`app/ai_models/utils.py:34-49`): the walk
either performs its single leaf assignment or leaves the value untouched. -/
def setRedactPath (v : JVal) (path : List String) : JVal :=
  if canRedact v path then updateRedact v path else v

/-- Embedding of `apply_redaction(config, redaction_map)`: fold the secret
paths (already split at dots) over the config.  An absent or empty redaction
map yields the config unchanged, as in the source. -/
def applyRedaction (cfg : JVal) (secretPaths : List (List String)) : JVal :=
  secretPaths.foldl setRedactPath cfg

/-! ## Agent network graph engine (`app/agent_networks/services.py`) -/

/-- One node of a network spec (`AgentNetworkNodeSpec`).  `agent_id` and
`child_network_id` are optional references; Python UUID truthiness is
`Option.isSome`. -/
structure NodeSpec where
  nodeKey : String
  agentId : Option String := none
  childNetworkId : Option String := none
  childNetworkVersion : Option String := none
  role : Option String := none
deriving Repr

/-- One directed edge of a network spec (`AgentNetworkEdgeSpec`). -/
structure EdgeSpec where
  src : String
  tgt : String
  condition : Option String := none
deriving Repr

/-- A parsed network spec (`AgentNetworkSpec`): type, nodes, edges and the
optional swarm configuration dict (its two recognized keys). -/
structure NetSpec where
  ntype : String
  nodes : List NodeSpec
  edges : List EdgeSpec
  swarmDefaultActive : Option String := none
  swarmHandoffPolicy : Option String := none
deriving Repr

/-- Visited-state map of `_assert_acyclic`: a Python dict from node key to
0 (unvisited) / 1 (in progress) / 2 (done); `visited.get(node, 0)`. -/
abbrev VMap : Type := List (String × Nat)

/-- Lookup with default 0, as `visited.get(node, 0)`. -/
def vget (m : VMap) (k : String) : Nat :=
  match List.find? (fun p => p.1 = k) m with
  | some p => p.2
  | none => 0

/-- Assignment `visited[node] = c`. -/
def vset (m : VMap) (k : String) (c : Nat) : VMap :=
  if List.any m (fun p => p.1 = k) then
    List.map (fun p : String × Nat => if p.1 = k then (k, c) else p) m
  else
    m ++ [(k, c)]

/-- Duplicate-dropping (keep first occurrence), mirroring Python dict-key
insertion order when the same key is written repeatedly. -/
def dedupFirst : List String → List String
  | [] => []
  | x :: xs => x :: dedupFirst (xs.filter (fun y => y ≠ x))
termination_by l => l.length
decreasing_by
  simp_wf
  exact Nat.lt_succ_of_le (List.length_filter_le _ _)

/-- Keys of the adjacency dict built by `_assert_acyclic`: every node key
(first occurrence), then every edge source not already present, in edge
order (`graph.setdefault`). -/
def graphKeys (nodes : List String) (edges : List (String × String)) : List String :=
  edges.foldl (fun acc e => if e.1 ∈ acc then acc else acc ++ [e.1]) (dedupFirst nodes)

/-- Adjacency list of a node: edge targets appended in edge order
(`graph.setdefault(source, []).append(target)` / `graph.get(node, [])`). -/
def adjOf (edges : List (String × String)) (u : String) : List String :=
  (edges.filter (fun e => e.1 = u)).map (fun e => e.2)

mutual
/-- The recursive `dfs(node)` of `_assert_acyclic`
(`app/agent_networks/services.py:277-286`), with explicit fuel.  `none` is
fuel exhaustion (proved unreachable for sufficient fuel), `some (.error ())`
is the raised cycle error, `some (.ok m)` is normal return with the updated
visited map. -/
def dfsA (adj : String → List String) : Nat → String → VMap → Option (Except Unit VMap)
  | 0, _, _ => none
  | fuel + 1, u, m =>
      if vget m u = 1 then some (Except.error ())
      else if vget m u = 2 then some (Except.ok m)
      else
        match dfsL adj fuel (adj u) (vset m u 1) with
        | none => none
        | some (Except.error e) => some (Except.error e)
        | some (Except.ok m2) => some (Except.ok (vset m2 u 2))
termination_by fuel _ _ => (fuel, 0)

/-- The `for nxt in graph.get(node, []): dfs(nxt)` loop. -/
def dfsL (adj : String → List String) : Nat → List String → VMap → Option (Except Unit VMap)
  | _, [], m => some (Except.ok m)
  | fuel, v :: vs, m =>
      match dfsA adj fuel v m with
      | none => none
      | some (Except.error e) => some (Except.error e)
      | some (Except.ok m2) => dfsL adj fuel vs m2
termination_by fuel l _ => (fuel, l.length + 1)
end

/-- The top-level `for key in graph.keys(): if visited.get(key, 0) == 0:
dfs(key)` loop of `_assert_acyclic`. -/
def dfsTop (adj : String → List String) (fuel : Nat) : List String → VMap → Option (Except Unit VMap)
  | [], m => some (Except.ok m)
  | k :: ks, m =>
      if vget m k = 0 then
        match dfsA adj fuel k m with
        | none => none
        | some (Except.error e) => some (Except.error e)
        | some (Except.ok m2) => dfsTop adj fuel ks m2
      else dfsTop adj fuel ks m

/-- Every node the traversal can ever touch: the dict keys plus all edge
targets. -/
def nodeUniverse (nodes : List String) (edges : List (String × String)) : List String :=
  dedupFirst (graphKeys nodes edges ++ edges.map (fun e => e.2))

/-- Fuel sufficient for the recursion depth (proved below): one unit per
distinct reachable node, plus slack. -/
def acyclicFuel (nodes : List String) (edges : List (String × String)) : Nat :=
  (nodeUniverse nodes edges).length + 2

/-- Node keys of a spec, in order. -/
def specNodeKeys (s : NetSpec) : List String := s.nodes.map (fun n => n.nodeKey)

/-- Edge (source, target) pairs of a spec, in order. -/
def specEdgePairs (s : NetSpec) : List (String × String) :=
  s.edges.map (fun e => (e.src, e.tgt))

/-- Error taxonomy of `app/agent_networks`: the message payload carried by
`AgentNetworkInvalid` (HTTP 422, code `AGENT_NETWORK_INVALID`). -/
inductive NetMsg where
  | edgeUnknownNode
  | cycleDetected
  | refAgentNotFound (id : String)
  | refNetworkNotFound (id : String)
  | refXor
  | swarmNodesMustBeAgents
  | swarmDefaultActiveUnknown
  | swarmHandoffPolicyInvalid
  | networkDisabled
  | typeNotSupported
deriving Repr, DecidableEq

/-- Exceptions raised by `AgentNetworkService`, one constructor per exception
class of `app/agent_networks/exceptions.py`. -/
inductive NetErr where
  | notFound
  | conflict
  | invalid (msg : NetMsg)
deriving Repr, DecidableEq

/-- The `code` string attached to each exception class. -/
def netErrCode : NetErr → String
  | NetErr.notFound => "AGENT_NETWORK_NOT_FOUND"
  | NetErr.conflict => "AGENT_NETWORK_CONFLICT"
  | NetErr.invalid _ => "AGENT_NETWORK_INVALID"

/-- Whether an error is ValidationInvalid-classified (an
`AgentNetworkInvalid`, HTTP 422). -/
def isValidationInvalid : NetErr → Bool
  | NetErr.invalid _ => true
  | _ => false

/-- Embedding of `_assert_acyclic(spec)`
(`app/agent_networks/services.py:268-290`): build the adjacency dict from
the spec nodes and edges and run the three-color depth-first traversal over
all keys; an in-progress node re-encountered raises the cycle error.  Fuel
exhaustion cannot occur at `acyclicFuel` (proved below) and is mapped to
success. -/
def assertAcyclic (s : NetSpec) : Except NetErr Unit :=
  match dfsTop (adjOf (specEdgePairs s)) (acyclicFuel (specNodeKeys s) (specEdgePairs s))
      (graphKeys (specNodeKeys s) (specEdgePairs s)) [] with
  | some (Except.error _) => Except.error (NetErr.invalid NetMsg.cycleDetected)
  | _ => Except.ok ()

/-- Paths of length at least one through an edge list: `edgeStep edges u v`
holds when the pair `(u, v)` is an edge. -/
def edgeStep (edges : List (String × String)) (u v : String) : Prop :=
  (u, v) ∈ edges

/-- Nonempty directed paths through the edge list. -/
inductive PathPos (edges : List (String × String)) : String → String → Prop where
  | single {a b : String} : edgeStep edges a b → PathPos edges a b
  | tail {a b c : String} : PathPos edges a b → edgeStep edges b c → PathPos edges a c

/-- A directed cycle in a spec graph: a nonempty path from some node back to
itself. -/
def specHasCycle (s : NetSpec) : Prop :=
  ∃ w, PathPos (specEdgePairs s) w w

/-! ## Tenant-scoped persistence model -/

/-- A persisted Agent row: tenant scoping and nullable soft-delete timestamp
(`app/agents/models.py`).  `id` is the primary key. -/
structure AgentRow where
  id : String
  tenantId : String
  deletedAt : Option Nat := none
  isEnabled : Bool := true
deriving Repr, DecidableEq

/-- A persisted AgentNetwork row, with its parsed spec
(`app/agent_networks/models.py`). -/
structure NetworkRow where
  id : String
  tenantId : String
  deletedAt : Option Nat := none
  isEnabled : Bool := true
  spec : NetSpec
deriving Repr

/-- The relational store visible to the network service: Agent and
AgentNetwork tables. -/
structure DbEnv where
  agents : List AgentRow
  networks : List NetworkRow

/-- Tenant-scoped, soft-delete-aware existence test for an agent, as the
`select` filter of `_ensure_node_reference_exists`. -/
def agentLive (agents : List AgentRow) (tenant aid : String) : Bool :=
  agents.any (fun r => r.id = aid && r.tenantId = tenant && r.deletedAt.isNone)

/-- Tenant-scoped, soft-delete-aware existence test for a network. -/
def networkLive (networks : List NetworkRow) (tenant nid : String) : Bool :=
  networks.any (fun r => r.id = nid && r.tenantId = tenant && r.deletedAt.isNone)

/-- Embedding of `_ensure_node_reference_exists(node)`
(`app/agent_networks/services.py:243-266`): a set `agent_id` must resolve to
a live tenant-owned agent; a set `child_network_id` must resolve to a live
tenant-owned network; finally exactly one of the two must be set. -/
def ensureNodeRef (env : DbEnv) (tenant : String) (n : NodeSpec) : Except NetErr Unit := do
  (match n.agentId with
   | some aid =>
       if agentLive env.agents tenant aid then pure ()
       else throw (NetErr.invalid (NetMsg.refAgentNotFound aid))
   | none => pure ())
  (match n.childNetworkId with
   | some nid =>
       if networkLive env.networks tenant nid then pure ()
       else throw (NetErr.invalid (NetMsg.refNetworkNotFound nid))
   | none => pure ())
  if n.agentId.isSome = n.childNetworkId.isSome then
    throw (NetErr.invalid NetMsg.refXor)
  else pure ()

/-- The `for e in spec.edges` check of `validate`: both endpoints must name
existing node keys. -/
def checkEdges (keys : List String) : List EdgeSpec → Except NetErr Unit
  | [] => Except.ok ()
  | e :: es =>
      if keys.contains e.src && keys.contains e.tgt then checkEdges keys es
      else Except.error (NetErr.invalid NetMsg.edgeUnknownNode)

/-- The `for n in spec.nodes: self._ensure_node_reference_exists(n)` loop. -/
def checkRefs (env : DbEnv) (tenant : String) : List NodeSpec → Except NetErr Unit
  | [] => Except.ok ()
  | n :: ns => do
      ensureNodeRef env tenant n
      checkRefs env tenant ns

/-- Python `(cfg.get("handoff_policy") or "edges").strip()`. -/
def swarmPolicyOf (s : NetSpec) : String :=
  (match s.swarmHandoffPolicy with
   | some p => if p = "" then "edges" else p
   | none => "edges").trim

/-- Embedding of `_validate_swarm_spec(spec)`
(`app/agent_networks/services.py:293-308`): agent-only nodes, an optional
nonempty `default_active_agent` naming a node key, and a handoff policy of
`edges` (default) or `allow_all`. -/
def validateSwarm (s : NetSpec) : Except NetErr Unit :=
  match s.nodes.find? (fun n => !n.agentId.isSome || n.childNetworkId.isSome) with
  | some _ => Except.error (NetErr.invalid NetMsg.swarmNodesMustBeAgents)
  | none =>
      if (s.swarmDefaultActive.getD "").trim ≠ "" ∧
          ¬(specNodeKeys s).contains ((s.swarmDefaultActive.getD "").trim) then
        Except.error (NetErr.invalid NetMsg.swarmDefaultActiveUnknown)
      else if swarmPolicyOf s = "edges" ∨ swarmPolicyOf s = "allow_all" then
        Except.ok ()
      else Except.error (NetErr.invalid NetMsg.swarmHandoffPolicyInvalid)

/-- Embedding of `AgentNetworkService.validate`
(`app/agent_networks/services.py:154-171`), on the parsed spec of an
already-fetched network row: edge-endpoint check, acyclicity for every type
except `swarm`, node reference resolution, then swarm-specific validation. -/
def validateSpec (env : DbEnv) (tenant : String) (s : NetSpec) : Except NetErr Unit := do
  checkEdges (specNodeKeys s) s.edges
  (if s.ntype ≠ "swarm" then assertAcyclic s else pure ())
  checkRefs env tenant s.nodes
  if s.ntype = "swarm" then validateSwarm s else pure ()

/-- Which runtime `invoke` dispatches into. -/
inductive RuntimeDispatch where
  | standaloneRuntime
  | swarmRuntime
deriving Repr, DecidableEq

/-- Embedding of `AgentNetworkService.invoke`
(`app/agent_networks/services.py:174-186`) after `_get_owned`: a disabled
network is rejected, `standalone` and `swarm` dispatch into their runtimes,
and every other type raises `AgentNetworkInvalid("Network type not supported
in this iteration")` before any node executes. -/
def invokeNetwork (row : NetworkRow) : Except NetErr RuntimeDispatch :=
  if !row.isEnabled then Except.error (NetErr.invalid NetMsg.networkDisabled)
  else if row.spec.ntype = "standalone" then Except.ok RuntimeDispatch.standaloneRuntime
  else if row.spec.ntype = "swarm" then Except.ok RuntimeDispatch.swarmRuntime
  else Except.error (NetErr.invalid NetMsg.typeNotSupported)

/-! ## Agent service (`app/agents/services.py`) -/

/-- Exceptions raised by `AgentService` (`app/agents/exceptions.py`). -/
inductive AgentErr where
  | notFound
  | conflict
  | disabled
  | configInvalid
deriving Repr, DecidableEq

/-- Embedding of `AgentService._get_owned`
(`app/agents/services.py:192-203`): fetch by id within the tenant, excluding
soft-deleted rows; raise `AgentNotFound` otherwise.  `id` is the primary
key, so at most one row matches. -/
def agentGetOwned (agents : List AgentRow) (tenant aid : String) : Except AgentErr AgentRow :=
  match agents.find? (fun r => r.id = aid && r.tenantId = tenant && r.deletedAt.isNone) with
  | some r => Except.ok r
  | none => Except.error AgentErr.notFound

/-- Embedding of the base filter of `AgentService.list`
(`app/agents/services.py:75-89`): tenant-scoped, soft-deleted rows
excluded. -/
def agentList (agents : List AgentRow) (tenant : String) : List AgentRow :=
  agents.filter (fun r => r.tenantId = tenant && r.deletedAt.isNone)

/-- Embedding of `AgentService.delete` (`app/agents/services.py:123-128`):
stamp the deletion timestamp on the live tenant-owned row with this id. -/
def agentSoftDelete (agents : List AgentRow) (tenant aid : String) (now : Nat) : List AgentRow :=
  agents.map (fun r =>
    if r.id = aid && r.tenantId = tenant && r.deletedAt.isNone then
      { r with deletedAt := some now }
    else r)

/-- The effective allow-list of `_run_langgraph_react`
(`app/agents/services.py:324-334`): a per-invocation
`tool_overrides.allowed_tools` that is present and not `None` replaces the
static `tool_policy.allowed_tools`; `none` models a `null`/absent list. -/
def effectiveAllowedTools (staticAllowed overrideAllowed : Option (List String)) :
    Option (List String) :=
  match overrideAllowed with
  | some l => some l
  | none => staticAllowed

/-- The permitted tool ids of `_run_langgraph_react`
(`app/agents/services.py:328-337`): with a `null` allow-list the allowed set
is every bound tool; otherwise the listed ids; the result keeps the bound
ids that are in the allowed set, in binding order. -/
def permittedToolIds (bound : List String) (allowed : Option (List String)) : List String :=
  match allowed with
  | none => bound.filter (fun t => bound.contains t)
  | some l => bound.filter (fun t => l.contains t)

/-! ## Tool adapters (`app/agent_tools/adapters`) -/

/-- Exceptions raised by the tool adapters
(`app/agent_tools/exceptions.py`). -/
inductive ToolErr where
  | bindingInvalid
  | configInvalid
  | adapterNotFound
  | predicateDisallowed (column : String)
deriving Repr, DecidableEq

/-- The `config` blob of a `sql.select` tool, keys as read by the adapter
(`app/agent_tools/adapters/sql_select.py:27-31`); absent keys are `none`. -/
structure SqlToolConfig where
  defaultColumns : Option (List String) := none
  maxRows : Option Int := none
  queryTimeoutS : Option Int := none
  allowedPredicates : Option (List String) := none
deriving Repr

/-- The caller payload of a `sql.select` invocation
(`InvokeSQLSelectRequest`).  The `where` dict is kept as key/value pairs. -/
structure SqlPayload where
  columns : Option (List String) := none
  whereClause : Option (List (String × JVal)) := none
  params : Option (List (String × JVal)) := none
  orderBy : Option (List String) := none
  limit : Option Int := none
  offset : Option Int := none
deriving Repr

/-- The constrained query specification handed to the dataset layer by
`SqlSelectAdapter.invoke` (`app/agent_tools/adapters/sql_select.py:41-49`). -/
structure SqlQuerySpec where
  columns : Option (List String)
  whereClause : Option (List (String × JVal))
  params : Option (List (String × JVal))
  orderBy : Option (List String)
  limit : Int
  offset : Int
  timeoutS : Int
deriving Repr

/-- Embedding of the cap-enforcing portion of `SqlSelectAdapter.invoke`
(`app/agent_tools/adapters/sql_select.py:23-59`): merge the payload with
tool-level defaults, clamp the limit to `max_rows` (default 500), clamp the
timeout into [1, 60], and reject predicates outside the configured
allow-list before delegating to the dataset layer. -/
def sqlBuildQuerySpec (cfg : SqlToolConfig) (payload : SqlPayload) :
    Except ToolErr SqlQuerySpec := do
  let maxRows := cfg.maxRows.getD 500
  let timeoutS := cfg.queryTimeoutS.getD 15
  let columns := match payload.columns with
                 | some cs => some cs
                 | none => cfg.defaultColumns
  let limit := match payload.limit with
               | none => maxRows
               | some l => min l maxRows
  let qs : SqlQuerySpec :=
    { columns := columns
      whereClause := payload.whereClause
      params := payload.params
      orderBy := payload.orderBy
      limit := limit
      offset := payload.offset.getD 0
      timeoutS := min (max timeoutS 1) 60 }
  let allowed := cfg.allowedPredicates.getD []
  (if allowed ≠ [] then
     match qs.whereClause with
     | some kvs =>
         match kvs.find? (fun kv => !allowed.contains kv.1) with
         | some kv => throw (ToolErr.predicateDisallowed kv.1)
         | none => pure ()
     | none => pure ()
   else pure ())
  pure qs

/-- The `config` blob of a `vector.similarity_search` tool, keys as read by
the adapter (`app/agent_tools/adapters/vector_similarity_search.py:30-51`). -/
structure VectorToolConfig where
  topK : Option Int := none
  includeMetadata : Option Bool := none
  includeValues : Option Bool := none
  namespaceName : Option String := none
  allowedMetadataFields : Option (List String) := none
  embedTextMaxChars : Option Int := none
deriving Repr

/-- Embedding of the `top_k` computation of
`VectorSimilaritySearchAdapter.invoke`
(`app/agent_tools/adapters/vector_similarity_search.py:31-32`):
`int(payload.get("top_k") or config.get("top_k", 10))`, then
`max(1, min(top_k, 1000))`.  A payload `top_k` of `0` is falsy in Python and
falls through to the configured value. -/
def vectorEffectiveTopK (payloadTopK : Option Int) (cfgTopK : Option Int) : Int :=
  let raw := match payloadTopK with
             | some x => if x = 0 then cfgTopK.getD 10 else x
             | none => cfgTopK.getD 10
  max 1 (min raw 1000)

/-- Embedding of `validate_config` for the `sql.select` adapter: the adapter
does not override `AgentToolAdapter.validate_config`
(`app/agent_tools/adapters/base.py:15-16`), which returns `None` for every
config — no bounds are checked. -/
def sqlSelectValidateConfig (_cfg : SqlToolConfig) : Except ToolErr Unit :=
  Except.ok ()

/-- Embedding of `validate_config` for the `vector.similarity_search`
adapter: likewise the inherited base no-op. -/
def vectorValidateConfig (_cfg : VectorToolConfig) : Except ToolErr Unit :=
  Except.ok ()

/-- The bounds declared by the repository's own (unreferenced)
`SQLSelectConfig` schema (`app/agent_tools/schemas.py:19-23`):
`max_rows` in [1, 5000] and `query_timeout_s` in [1, 60]. -/
def sqlSelectConfigBoundsOk (maxRows queryTimeoutS : Int) : Bool :=
  1 ≤ maxRows && maxRows ≤ 5000 && 1 ≤ queryTimeoutS && queryTimeoutS ≤ 60

/-- The bound declared by the repository's own (unreferenced)
`VectorSimilaritySearchConfig` schema (`app/agent_tools/schemas.py:26-27`):
`top_k` in [1, 1000]. -/
def vectorConfigBoundsOk (topK : Int) : Bool :=
  1 ≤ topK && topK ≤ 1000

/-! ## Adapter registry (`app/agent_tools/adapters/__init__.py`) -/

/-- A tool adapter registry: a finite map from `(kind, provider)` to an
adapter, modelled as a function into `Option` adapter names.  Python dict
writes are modelled by `registryRegister`. -/
def ToolRegistry : Type := String × Option String → Option String

/-- Embedding of `Registry.register(kind, adapter, provider)`: dict
assignment at key `(kind, provider)`. -/
def registryRegister (r : ToolRegistry) (kind : String) (adapter : String)
    (provider : Option String := none) : ToolRegistry :=
  fun key => if key = (kind, provider) then some adapter else r key

/-- Embedding of `Registry.get(kind, provider)`
(`app/agent_tools/adapters/__init__.py:13-14`):
`self._adapters.get((kind, provider)) or self._adapters.get((kind, None))`.
Adapter instances are always truthy in Python, so `or` is `Option.orElse`. -/
def registryGet (r : ToolRegistry) (kind : String) (provider : Option String := none) :
    Option String :=
  match r (kind, provider) with
  | some a => some a
  | none => r (kind, none)

/-- Whether the predicate allow-list gate of `SqlSelectAdapter.invoke`
passes: the allow-list is absent/empty, or every `where` key is listed. -/
def sqlPredGateOk (cfg : SqlToolConfig) (payload : SqlPayload) : Bool :=
  (cfg.allowedPredicates.getD []).isEmpty ||
    match payload.whereClause with
    | some kvs => kvs.all (fun kv => (cfg.allowedPredicates.getD []).contains kv.1)
    | none => true

/-- Topological-order invariant for the traversal: `L` lists the done nodes
in finish order, and every successor of a done node finishes strictly
earlier. -/
def TopoInv (adj : String → List String) (m : VMap) (L : List String) : Prop :=
  L.Nodup ∧ (∀ x, vget m x = 2 ↔ x ∈ L) ∧
  (∀ u ∈ L, ∀ v ∈ adj u, v ∈ L ∧ L.indexOf v < L.indexOf u)

/-! ## Theorems -/

/-- Membership in `permittedToolIds`. -/
theorem mem_permittedToolIds (bound : List String) (l : List String) (x : String) :
    x ∈ permittedToolIds bound (some l) ↔ (x ∈ bound ∧ x ∈ l) := by
  simp [permittedToolIds, List.mem_filter]

/-- Claim C2: the set of tools exposed to the tool-calling loop follows the
tri-state allow-list semantics on the effective policy (static
`tool_policy.allowed_tools`, overridden by a present, non-null
`tool_overrides.allowed_tools`): a `null`/absent allow-list permits every
bound tool, an explicit empty list permits none, and a nonempty list permits
exactly the intersection of the bound tool ids with the listed ids. -/
theorem toolPolicyTriState (bound : List String)
    (staticAllowed overrideAllowed : Option (List String)) :
    (effectiveAllowedTools staticAllowed overrideAllowed = none →
      permittedToolIds bound (effectiveAllowedTools staticAllowed overrideAllowed) = bound) ∧
    (effectiveAllowedTools staticAllowed overrideAllowed = some [] →
      permittedToolIds bound (effectiveAllowedTools staticAllowed overrideAllowed) = []) ∧
    (∀ l, effectiveAllowedTools staticAllowed overrideAllowed = some l →
      ∀ x, x ∈ permittedToolIds bound (effectiveAllowedTools staticAllowed overrideAllowed) ↔
        (x ∈ bound ∧ x ∈ l)) := by
  refine ⟨fun h => ?_, fun h => ?_, fun l h x => ?_⟩
  · rw [h]
    simp [permittedToolIds]
  · rw [h]
    simp [permittedToolIds]
  · rw [h]
    simp [permittedToolIds, List.mem_filter]

/-- Witness for C2 at the spec's P3 example: an agent bound to {T1, T2}. -/
theorem toolPolicyTriStateWitness :
    permittedToolIds ["T1", "T2"] (effectiveAllowedTools none none) = ["T1", "T2"] ∧
    permittedToolIds ["T1", "T2"] (effectiveAllowedTools (some ["T1"]) (some [])) = [] ∧
    ("T1" ∈ permittedToolIds ["T1", "T2"] (effectiveAllowedTools none (some ["T1"])) ∧
      "T2" ∉ permittedToolIds ["T1", "T2"] (effectiveAllowedTools none (some ["T1"]))) := by
  refine ⟨(toolPolicyTriState ["T1", "T2"] none none).1 rfl,
          (toolPolicyTriState ["T1", "T2"] (some ["T1"]) (some [])).2.1 rfl,
          ((toolPolicyTriState ["T1", "T2"] none (some ["T1"])).2.2 ["T1"] rfl "T1").mpr
            (by decide),
          fun hmem => ?_⟩
  have := ((toolPolicyTriState ["T1", "T2"] none (some ["T1"])).2.2 ["T1"] rfl "T2").mp hmem
  simp at this

/-- Claim C3: during network create, update or validate, the node
reference-integrity check raises `ValidationInvalid` when both `agent_id`
and `child_network_id` are set or when neither is set, and passes a node
with exactly one of the two set to an existing, non-deleted, tenant-owned
entity. -/
theorem nodeReferenceXor (env : DbEnv) (tenant : String) (n : NodeSpec) :
    (n.agentId.isSome = true → n.childNetworkId.isSome = true →
      ∃ m, ensureNodeRef env tenant n = Except.error (NetErr.invalid m)) ∧
    (n.agentId = none → n.childNetworkId = none →
      ensureNodeRef env tenant n = Except.error (NetErr.invalid NetMsg.refXor)) ∧
    (∀ aid, n.agentId = some aid → n.childNetworkId = none →
      agentLive env.agents tenant aid = true →
      ensureNodeRef env tenant n = Except.ok ()) ∧
    (∀ nid, n.agentId = none → n.childNetworkId = some nid →
      networkLive env.networks tenant nid = true →
      ensureNodeRef env tenant n = Except.ok ()) := by
  refine ⟨fun ha hc => ?_, fun ha hc => ?_, fun aid ha hc hl => ?_, fun nid ha hc hl => ?_⟩
  · match hag : n.agentId, hch : n.childNetworkId with
    | some aid, some nid =>
        by_cases h1 : agentLive env.agents tenant aid
        · by_cases h2 : networkLive env.networks tenant nid
          · exact ⟨NetMsg.refXor, by simp [ensureNodeRef, hag, hch, h1, h2, throw, throwThe,
              MonadExceptOf.throw, Bind.bind, Except.bind, pure, Except.pure]⟩
          · exact ⟨NetMsg.refNetworkNotFound nid, by simp [ensureNodeRef, hag, hch, h1, h2,
              throw, throwThe, MonadExceptOf.throw, Bind.bind, Except.bind, pure, Except.pure]⟩
        · exact ⟨NetMsg.refAgentNotFound aid, by simp [ensureNodeRef, hag, hch, h1, throw,
            throwThe, MonadExceptOf.throw, Bind.bind, Except.bind, pure, Except.pure]⟩
    | some _, none => rw [hch] at hc; simp at hc
    | none, _ => rw [hag] at ha; simp at ha
  · simp [ensureNodeRef, ha, hc, throw, throwThe, MonadExceptOf.throw, Bind.bind, Except.bind, pure, Except.pure]
  · simp [ensureNodeRef, ha, hc, hl, throw, throwThe, MonadExceptOf.throw, Bind.bind, Except.bind, pure, Except.pure]
  · simp [ensureNodeRef, ha, hc, hl, throw, throwThe, MonadExceptOf.throw, Bind.bind, Except.bind, pure, Except.pure]

/-- Witness for C3: a two-agent tenant; a node referencing a live agent
passes, one referencing both an agent and a network raises, one referencing
neither raises. -/
theorem nodeReferenceXorWitness :
    (ensureNodeRef
        { agents := [{ id := "a1", tenantId := "t" }],
          networks := [{ id := "n1", tenantId := "t",
                         spec := { ntype := "standalone", nodes := [], edges := [] } }] }
        "t" { nodeKey := "A", agentId := some "a1" } = Except.ok ()) ∧
    (∃ m, ensureNodeRef
        { agents := [{ id := "a1", tenantId := "t" }],
          networks := [{ id := "n1", tenantId := "t",
                         spec := { ntype := "standalone", nodes := [], edges := [] } }] }
        "t" { nodeKey := "B", agentId := some "a1", childNetworkId := some "n1" } =
          Except.error (NetErr.invalid m)) ∧
    (ensureNodeRef
        { agents := [{ id := "a1", tenantId := "t" }],
          networks := [{ id := "n1", tenantId := "t",
                         spec := { ntype := "standalone", nodes := [], edges := [] } }] }
        "t" { nodeKey := "C" } = Except.error (NetErr.invalid NetMsg.refXor)) := by
  refine ⟨?_, ?_, ?_⟩
  · exact (nodeReferenceXor
      { agents := [{ id := "a1", tenantId := "t" }],
        networks := [{ id := "n1", tenantId := "t",
                       spec := { ntype := "standalone", nodes := [], edges := [] } }] }
      "t" { nodeKey := "A", agentId := some "a1" }).2.2.1 "a1" rfl rfl (by decide)
  · exact (nodeReferenceXor
      { agents := [{ id := "a1", tenantId := "t" }],
        networks := [{ id := "n1", tenantId := "t",
                       spec := { ntype := "standalone", nodes := [], edges := [] } }] }
      "t" { nodeKey := "B", agentId := some "a1", childNetworkId := some "n1" }).1 rfl rfl
  · exact (nodeReferenceXor
      { agents := [{ id := "a1", tenantId := "t" }],
        networks := [{ id := "n1", tenantId := "t",
                       spec := { ntype := "standalone", nodes := [], edges := [] } }] }
      "t" { nodeKey := "C" }).2.1 rfl rfl

/-- Counterexample to C4 as stated: the claim asserts a caller-supplied
`top_k` never exceeds the configured `top_k`, but a payload `top_k` of 100
against a tool configured with `top_k = 5` yields an effective `top_k` of
100 (only the hard bound 1000 is applied). -/
theorem vectorTopKExceedsConfigured :
    vectorEffectiveTopK (some 100) (some 5) = 100 ∧
    ¬(vectorEffectiveTopK (some 100) (some 5) ≤ 5) := by
  constructor
  · rfl
  · decide

/-- Claim C4 (amended): caller limits on `sql.select` are clamped to the
configured maximum: the effective limit is `min(L, max_rows)` for a payload
limit `L` and `max_rows` (default 500) when absent, computed without
raising whenever the predicate allow-list gate passes.  The
`vector.similarity_search` effective `top_k` is the caller's `top_k` (when
provided and nonzero) clamped into [1, 1000] — it is NOT capped at the
configured `top_k` — and falls back to the configured `top_k` (default 10),
clamped into [1, 1000], when the caller supplies none or zero. -/
theorem capClampingSemantics (cfg : SqlToolConfig) (payload : SqlPayload)
    (pk ck : Option Int) (hgate : sqlPredGateOk cfg payload = true) :
    (∃ qs, sqlBuildQuerySpec cfg payload = Except.ok qs ∧
      qs.limit = (match payload.limit with
                  | none => cfg.maxRows.getD 500
                  | some l => min l (cfg.maxRows.getD 500)) ∧
      qs.limit ≤ cfg.maxRows.getD 500) ∧
    (1 ≤ vectorEffectiveTopK pk ck ∧ vectorEffectiveTopK pk ck ≤ 1000) ∧
    (∀ k, pk = some k → k ≠ 0 →
      vectorEffectiveTopK pk ck = max 1 (min k 1000)) ∧
    ((pk = none ∨ pk = some 0) →
      vectorEffectiveTopK pk ck = max 1 (min (ck.getD 10) 1000)) := by
  refine ⟨?_, ⟨le_max_left _ _, ?_⟩, fun k hk hk0 => ?_, fun h => ?_⟩
  · have hok : sqlBuildQuerySpec cfg payload = Except.ok
        { columns := (match payload.columns with | some cs => some cs | none => cfg.defaultColumns)
          whereClause := payload.whereClause
          params := payload.params
          orderBy := payload.orderBy
          limit := (match payload.limit with
                    | none => cfg.maxRows.getD 500
                    | some l => min l (cfg.maxRows.getD 500))
          offset := payload.offset.getD 0
          timeoutS := min (max (cfg.queryTimeoutS.getD 15) 1) 60 } := by
      unfold sqlPredGateOk at hgate
      unfold sqlBuildQuerySpec
      simp only [Bind.bind, Except.bind, pure, Except.pure]
      by_cases hemp : (cfg.allowedPredicates.getD []).isEmpty
      · simp [List.isEmpty_iff] at hemp
        simp [hemp]
      · simp [hemp] at hgate
        simp [List.isEmpty_iff] at hemp
        match hw : payload.whereClause with
        | none => simp [hw, hemp]
        | some kvs =>
            have hall : ∀ kv ∈ kvs, kv.1 ∈ cfg.allowedPredicates.getD [] := by
              rw [hw] at hgate
              simpa [List.all_eq_true] using hgate
            have hfind : List.find?
                (fun kv => !decide (kv.1 ∈ cfg.allowedPredicates.getD [])) kvs = none := by
              rw [List.find?_eq_none]
              intro kv hkv
              simp [hall kv hkv]
            simp [hw, hemp, hfind]
    refine ⟨_, hok, rfl, ?_⟩
    cases hl : payload.limit with
    | none => exact le_refl _
    | some l => exact min_le_right _ _
  · unfold vectorEffectiveTopK
    simp only [max_le_iff]
    exact ⟨by norm_num, min_le_right _ _⟩
  · simp [vectorEffectiveTopK, hk, hk0]
  · rcases h with h | h <;> simp [vectorEffectiveTopK, h]

/-- Witness for C4 (amended) at the spec's P4 numbers: payload limit 10000
against `max_rows = 500` is clamped to 500 without raising; and concrete
`top_k` clamping facts. -/
theorem capClampingSemanticsWitness :
    sqlPredGateOk { maxRows := some 500 } { limit := some 10000 } = true ∧
    (∃ qs, sqlBuildQuerySpec { maxRows := some 500 } { limit := some 10000 } =
        Except.ok qs ∧
      qs.limit = (match (some 10000 : Option Int) with
                  | none => ((some 500 : Option Int)).getD 500
                  | some l => min l (((some 500 : Option Int)).getD 500)) ∧
      qs.limit ≤ ((some 500 : Option Int)).getD 500) ∧
    vectorEffectiveTopK (some 2000) (some 5) = max 1 (min 2000 1000) := by
  refine ⟨by decide, ?_, ?_⟩
  · exact (capClampingSemantics { maxRows := some 500 } { limit := some 10000 }
      (some 2000) (some 5) (by decide)).1
  · exact (capClampingSemantics { maxRows := some 500 } { limit := some 10000 }
      (some 2000) (some 5) (by decide)).2.2.1 2000 rfl (by decide)

/-- Counterexample to C6 as stated: invoking an enabled `supervised` network
raises `AgentNetworkInvalid("Network type not supported in this
iteration")`, which carries the very same error class and `code`
(`AGENT_NETWORK_INVALID`, HTTP 422) as the validation errors — it is NOT an
error classified distinctly from ValidationInvalid. -/
theorem supervisedInvokeClassifiedAsInvalid :
    invokeNetwork
        { id := "n1", tenantId := "t",
          spec := { ntype := "supervised",
                    nodes := [{ nodeKey := "A", agentId := some "a1" }], edges := [] } } =
      Except.error (NetErr.invalid NetMsg.typeNotSupported) ∧
    isValidationInvalid (NetErr.invalid NetMsg.typeNotSupported) = true ∧
    netErrCode (NetErr.invalid NetMsg.typeNotSupported) =
      netErrCode (NetErr.invalid NetMsg.cycleDetected) := by
  refine ⟨rfl, rfl, rfl⟩

/-- Claim C6 (amended): invoking an enabled network of type `supervised` or
`custom` raises `AgentNetworkInvalid` with the "Network type not supported
in this iteration" message — the same ValidationInvalid classification used
by the spec validators, not a distinct NotImplemented class — and never
dispatches into any runtime (no node executes, no standalone fallback). -/
theorem unsupportedNetworkTypeInvoke (row : NetworkRow)
    (hen : row.isEnabled = true)
    (hty : row.spec.ntype = "supervised" ∨ row.spec.ntype = "custom") :
    invokeNetwork row = Except.error (NetErr.invalid NetMsg.typeNotSupported) ∧
    (∀ d, invokeNetwork row ≠ Except.ok d) := by
  have hne : invokeNetwork row = Except.error (NetErr.invalid NetMsg.typeNotSupported) := by
    rcases hty with h | h <;> simp [invokeNetwork, hen, h]
  exact ⟨hne, fun d hd => by rw [hne] at hd; exact Except.noConfusion hd⟩

/-- Witness for C6 (amended) on concrete supervised and custom networks. -/
theorem unsupportedNetworkTypeInvokeWitness :
    invokeNetwork
        { id := "n1", tenantId := "t",
          spec := { ntype := "custom",
                    nodes := [{ nodeKey := "A", agentId := some "a1" }], edges := [] } } =
      Except.error (NetErr.invalid NetMsg.typeNotSupported) :=
  (unsupportedNetworkTypeInvoke
    { id := "n1", tenantId := "t",
      spec := { ntype := "custom",
                nodes := [{ nodeKey := "A", agentId := some "a1" }], edges := [] } }
    rfl (Or.inr rfl)).1

/-- Claim C7 (code bug evidence): the `sql.select` and
`vector.similarity_search` adapters inherit the base `validate_config`,
which accepts every config; a `max_rows` of 999999 and a `top_k` of 0 are
accepted even though the repository's own (unused) `SQLSelectConfig` /
`VectorSimilaritySearchConfig` schemas declare them out of bounds. -/
theorem validateConfigAcceptsOutOfBounds :
    sqlSelectValidateConfig { maxRows := some 999999 } = Except.ok () ∧
    sqlSelectConfigBoundsOk 999999 15 = false ∧
    vectorValidateConfig { topK := some 0 } = Except.ok () ∧
    vectorConfigBoundsOk 0 = false := by
  refine ⟨rfl, by decide, rfl, by decide⟩

/-- Claim C9: adapter registry lookup returns the implementation registered
under `(kind, provider)` when present, otherwise the one registered under
`(kind, None)`; the provider-specific registration always wins. -/
theorem registryLookupFallback (r : ToolRegistry) (kind : String) (provider : Option String) :
    (∀ a, r (kind, provider) = some a → registryGet r kind provider = some a) ∧
    (r (kind, provider) = none → registryGet r kind provider = r (kind, none)) := by
  constructor
  · intro a h
    simp [registryGet, h]
  · intro h
    simp [registryGet, h]

/-- Witness for C9: with a default and a provider-specific registration for
`sql.select`, the provider-specific one wins at its provider and the
default is returned for any other provider. -/
theorem registryLookupFallbackWitness :
    registryGet
        (registryRegister (registryRegister (fun _ => none) "sql.select" "SqlSelectAdapter")
          "sql.select" "PgSqlSelectAdapter" (some "pg"))
        "sql.select" (some "pg") = some "PgSqlSelectAdapter" ∧
    registryGet
        (registryRegister (registryRegister (fun _ => none) "sql.select" "SqlSelectAdapter")
          "sql.select" "PgSqlSelectAdapter" (some "pg"))
        "sql.select" (some "other") = some "SqlSelectAdapter" := by
  constructor
  · exact (registryLookupFallback
      (registryRegister (registryRegister (fun _ => none) "sql.select" "SqlSelectAdapter")
        "sql.select" "PgSqlSelectAdapter" (some "pg"))
      "sql.select" (some "pg")).1 "PgSqlSelectAdapter" (by decide)
  · have h2 := (registryLookupFallback
      (registryRegister (registryRegister (fun _ => none) "sql.select" "SqlSelectAdapter")
        "sql.select" "PgSqlSelectAdapter" (some "pg"))
      "sql.select" (some "other")).2 (by decide)
    rw [h2]
    decide

/-- After a soft delete, no live row with the deleted id remains for the
tenant. -/
theorem agentSoftDelete_no_live_match (agents : List AgentRow) (tenant aid : String)
    (now : Nat) (r : AgentRow) (hr : r ∈ agentSoftDelete agents tenant aid now) :
    ¬(r.id = aid ∧ r.tenantId = tenant ∧ r.deletedAt = none) := by
  rintro ⟨hid, htn, hdel⟩
  unfold agentSoftDelete at hr
  rw [List.mem_map] at hr
  obtain ⟨r0, _, hmap⟩ := hr
  by_cases hm : (r0.id = aid && r0.tenantId = tenant && r0.deletedAt.isNone) = true
  · rw [if_pos hm] at hmap
    rw [← hmap] at hdel
    simp at hdel
  · rw [if_neg hm] at hmap
    subst hmap
    simp [hid, htn, hdel] at hm

/-- Claim C8: once an agent is soft-deleted, every subsequent lookup
excludes it — `get` raises `AgentNotFound`, `list` omits it, and a network
node referencing its id fails reference validation with the
ValidationInvalid-classified "Referenced agent not found" error (never a
NotImplemented-style error). -/
theorem softDeleteExclusion (agents : List AgentRow) (networks : List NetworkRow)
    (tenant aid : String) (now : Nat) (n : NodeSpec) (hn : n.agentId = some aid) :
    agentGetOwned (agentSoftDelete agents tenant aid now) tenant aid =
      Except.error AgentErr.notFound ∧
    (∀ r ∈ agentList (agentSoftDelete agents tenant aid now) tenant, r.id ≠ aid) ∧
    ensureNodeRef { agents := agentSoftDelete agents tenant aid now, networks := networks }
        tenant n = Except.error (NetErr.invalid (NetMsg.refAgentNotFound aid)) ∧
    isValidationInvalid (NetErr.invalid (NetMsg.refAgentNotFound aid)) = true := by
  have hnolive : ∀ r ∈ agentSoftDelete agents tenant aid now,
      ¬(r.id = aid ∧ r.tenantId = tenant ∧ r.deletedAt = none) :=
    fun r hr => agentSoftDelete_no_live_match agents tenant aid now r hr
  refine ⟨?_, ?_, ?_, rfl⟩
  · unfold agentGetOwned
    have hfind : (agentSoftDelete agents tenant aid now).find?
        (fun r => r.id = aid && r.tenantId = tenant && r.deletedAt.isNone) = none := by
      rw [List.find?_eq_none]
      intro r hr hcontra
      apply hnolive r hr
      simp at hcontra
      obtain ⟨⟨h1, h2⟩, h3⟩ := hcontra
      exact ⟨h1, h2, Option.isNone_iff_eq_none.mp (by simp [h3])⟩
    rw [hfind]
  · intro r hr hid
    unfold agentList at hr
    rw [List.mem_filter] at hr
    obtain ⟨hmem, hcond⟩ := hr
    apply hnolive r hmem
    simp at hcond
    exact ⟨hid, hcond.1, Option.isNone_iff_eq_none.mp (by simp [hcond.2])⟩
  · have hlive : agentLive (agentSoftDelete agents tenant aid now) tenant aid = false := by
      rw [agentLive, List.any_eq_false]
      intro r hr hcontra
      apply hnolive r hr
      simp at hcontra
      obtain ⟨⟨h1, h2⟩, h3⟩ := hcontra
      exact ⟨h1, h2, Option.isNone_iff_eq_none.mp (by simp [h3])⟩
    simp [ensureNodeRef, hn, hlive, throw, throwThe, MonadExceptOf.throw, Bind.bind,
      Except.bind]

/-- Witness for C8: a concrete tenant with one agent that is then
soft-deleted. -/
theorem softDeleteExclusionWitness :
    agentGetOwned (agentSoftDelete [{ id := "a1", tenantId := "t" }] "t" "a1" 7) "t" "a1" =
      Except.error AgentErr.notFound ∧
    ensureNodeRef
        { agents := agentSoftDelete [{ id := "a1", tenantId := "t" }] "t" "a1" 7,
          networks := [] }
        "t" { nodeKey := "A", agentId := some "a1" } =
      Except.error (NetErr.invalid (NetMsg.refAgentNotFound "a1")) := by
  refine ⟨(softDeleteExclusion [{ id := "a1", tenantId := "t" }] [] "t" "a1" 7
      { nodeKey := "A", agentId := some "a1" } rfl).1,
    (softDeleteExclusion [{ id := "a1", tenantId := "t" }] [] "t" "a1" 7
      { nodeKey := "A", agentId := some "a1" } rfl).2.2.1⟩

/-- Dict assignment then lookup at the same key yields the new value. -/
theorem objGet_objSet_self (fs : List (String × JVal)) (k : String) (v : JVal) :
    objGet (objSet fs k v) k = some v := by
  induction fs with
  | nil => simp [objSet, objGet]
  | cons p fs ih =>
      by_cases hp : p.1 = k
      · simp [objSet, objGet, hp]
      · by_cases hfs : fs.any (fun q => q.1 = k)
        · simp only [objSet, List.any_cons, hp, hfs] at ih ⊢
          simp [hp, hfs, objGet] at ih ⊢
          exact ih
        · simp only [objSet, List.any_cons, hp, hfs] at ih ⊢
          simp [hp, hfs, objGet] at ih ⊢
          exact ih


/-- Generic association-list fact: the set operation makes lookup at the
written key return the written pair. -/
theorem assoc_set_find?_self {α : Type} (fs : List (String × α)) (k : String) (v : α) :
    ((if fs.any (fun p => p.1 = k) then fs.map (fun p => if p.1 = k then (k, v) else p)
      else fs ++ [(k, v)]).find? (fun p => p.1 = k)) = some (k, v) := by
  by_cases hfs : fs.any (fun p => p.1 = k)
  · rw [if_pos hfs, List.find?_map]
    have hq : ((fun p : String × α => decide (p.1 = k)) ∘ (fun p => if p.1 = k then (k, v) else p))
        = fun p : String × α => decide (p.1 = k) := by
      funext p
      by_cases hp : p.1 = k
      · simp [Function.comp, hp]
      · simp [Function.comp, hp]
    rw [hq]
    have hsome : (fs.find? (fun p => decide (p.1 = k))).isSome := by
      rw [List.find?_isSome]
      rw [List.any_eq_true] at hfs
      obtain ⟨p, hp, hpk⟩ := hfs
      exact ⟨p, hp, hpk⟩
    cases hfind : fs.find? (fun p => decide (p.1 = k)) with
    | none => rw [hfind] at hsome; simp at hsome
    | some p =>
        have hsat := List.find?_some hfind
        simp at hsat
        simp [hsat]
  · rw [if_neg hfs, List.find?_append]
    have hnone : fs.find? (fun p => decide (p.1 = k)) = none := by
      rw [List.find?_eq_none]
      intro p hp hcontra
      apply hfs
      rw [List.any_eq_true]
      exact ⟨p, hp, hcontra⟩
    simp [hnone]

/-- Generic association-list fact: the set operation leaves lookups at other
keys untouched. -/
theorem assoc_set_find?_ne {α : Type} (fs : List (String × α)) (k k2 : String) (v : α)
    (hkk2 : k ≠ k2) :
    ((if fs.any (fun p => p.1 = k) then fs.map (fun p => if p.1 = k then (k, v) else p)
      else fs ++ [(k, v)]).find? (fun p => p.1 = k2)) = fs.find? (fun p => p.1 = k2) := by
  by_cases hfs : fs.any (fun p => p.1 = k)
  · rw [if_pos hfs, List.find?_map]
    have hq : ((fun p : String × α => decide (p.1 = k2)) ∘ (fun p => if p.1 = k then (k, v) else p))
        = fun p : String × α => decide (p.1 = k2) := by
      funext p
      by_cases hp : p.1 = k
      · simp [Function.comp, hp, Ne.symm hkk2]
      · simp [Function.comp, hp]
    rw [hq]
    cases hfind : fs.find? (fun p => decide (p.1 = k2)) with
    | none => rfl
    | some p =>
        have hsat := List.find?_some hfind
        simp at hsat
        have hpne : ¬ p.1 = k := by rw [hsat]; exact Ne.symm hkk2
        simp [hpne]
  · rw [if_neg hfs, List.find?_append]
    cases hfind : fs.find? (fun p => decide (p.1 = k2)) with
    | none => simp [hkk2]
    | some p => simp

/-- Dict assignment leaves lookups at other keys unchanged. -/
theorem objGet_objSet_ne (fs : List (String × JVal)) (k k2 : String) (v : JVal)
    (hne : k2 ≠ k) : objGet (objSet fs k v) k2 = objGet fs k2 := by
  unfold objGet objSet
  rw [assoc_set_find?_ne fs k k2 v (Ne.symm hne)]

/-- Visited-map write then read at the same key. -/
theorem vget_vset_self (m : VMap) (k : String) (c : Nat) : vget (vset m k c) k = c := by
  unfold vget vset
  rw [assoc_set_find?_self m k c]

/-- Visited-map write leaves other keys unchanged. -/
theorem vget_vset_ne (m : VMap) (k x : String) (c : Nat) (hne : x ≠ k) :
    vget (vset m k c) x = vget m x := by
  unfold vget vset
  rw [assoc_set_find?_ne m k x c (Ne.symm hne)]

/-- Dict lookup on a cons cell. -/
theorem objGet_cons (k1 : String) (v1 : JVal) (rest : List (String × JVal)) (k : String) :
    objGet ((k1, v1) :: rest) k = if k1 = k then some v1 else objGet rest k := by
  unfold objGet
  rw [List.find?_cons]
  by_cases h : k1 = k
  · simp [h]
  · simp [h]

/-- A key outside a dict's key set looks up to nothing. -/
theorem objGet_eq_none_of_not_mem_keys (fs : List (String × JVal)) (k : String)
    (hk : k ∉ fs.map Prod.fst) : objGet fs k = none := by
  unfold objGet
  have : fs.find? (fun p => p.1 = k) = none := by
    rw [List.find?_eq_none]
    intro p hp hcontra
    apply hk
    rw [List.mem_map]
    simp at hcontra
    exact ⟨p, hp, hcontra⟩
  rw [this]

/-- Lookup at the merged key after one `_merge` entry: dict-on-dict merges
recursively, a sentinel over a present non-`None` value is skipped, and
everything else overwrites. -/
theorem objGet_mergeField_self (dst : List (String × JVal)) (k : String) (v : JVal) :
    objGet (mergeField dst k v) k =
      (match v, objGet dst k with
       | JVal.obj so, some (JVal.obj dobj) => some (JVal.obj (mergeObjs dobj so))
       | _, dv => if isRedactedSentinel v && optIsNonNull dv then dv else some v) := by
  cases v with
  | obj so =>
      cases hd : objGet dst k with
      | none => simp [mergeField, hd, objGet_objSet_self, isRedactedSentinel]
      | some dv => cases dv <;> simp [mergeField, hd, objGet_objSet_self, isRedactedSentinel]
  | null =>
      by_cases hc : (isRedactedSentinel JVal.null && optIsNonNull (objGet dst k)) = true
      · simp [mergeField, hc]
      · simp [mergeField, hc, objGet_objSet_self]
  | str s =>
      by_cases hc : (isRedactedSentinel (JVal.str s) && optIsNonNull (objGet dst k)) = true
      · simp [mergeField, hc]
      · simp [mergeField, hc, objGet_objSet_self]
  | num n =>
      by_cases hc : (isRedactedSentinel (JVal.num n) && optIsNonNull (objGet dst k)) = true
      · simp [mergeField, hc]
      · simp [mergeField, hc, objGet_objSet_self]
  | boolean b =>
      by_cases hc : (isRedactedSentinel (JVal.boolean b) && optIsNonNull (objGet dst k)) = true
      · simp [mergeField, hc]
      · simp [mergeField, hc, objGet_objSet_self]
  | arr items =>
      by_cases hc : (isRedactedSentinel (JVal.arr items) && optIsNonNull (objGet dst k)) = true
      · simp [mergeField, hc]
      · simp [mergeField, hc, objGet_objSet_self]

/-- One `_merge` entry leaves lookups at other keys unchanged. -/
theorem objGet_mergeField_ne (dst : List (String × JVal)) (k k2 : String) (v : JVal)
    (hne : k2 ≠ k) : objGet (mergeField dst k v) k2 = objGet dst k2 := by
  cases v with
  | obj so =>
      cases hd : objGet dst k with
      | none => simp [mergeField, hd, objGet_objSet_ne dst k k2 _ hne]
      | some dv => cases dv <;> simp [mergeField, hd, objGet_objSet_ne dst k k2 _ hne]
  | null =>
      simp only [mergeField]
      split
      · rfl
      · exact objGet_objSet_ne dst k k2 _ hne
  | str s =>
      simp only [mergeField]
      split
      · rfl
      · exact objGet_objSet_ne dst k k2 _ hne
  | num n =>
      simp only [mergeField]
      split
      · rfl
      · exact objGet_objSet_ne dst k k2 _ hne
  | boolean b =>
      simp only [mergeField]
      split
      · rfl
      · exact objGet_objSet_ne dst k k2 _ hne
  | arr items =>
      simp only [mergeField]
      split
      · rfl
      · exact objGet_objSet_ne dst k k2 _ hne

/-- A key absent from the patch is untouched by `_merge`. -/
theorem objGet_mergeObjs_untouched (src : List (String × JVal)) :
    ∀ (dst : List (String × JVal)) (k : String), objGet src k = none →
      objGet (mergeObjs dst src) k = objGet dst k := by
  induction src with
  | nil => intro dst k _; rw [mergeObjs]
  | cons p rest ih =>
      intro dst k hk
      obtain ⟨k1, v1⟩ := p
      rw [objGet_cons] at hk
      by_cases h1 : k1 = k
      · rw [if_pos h1] at hk
        exact absurd hk (by simp)
      · rw [if_neg h1] at hk
        rw [mergeObjs, ih _ _ hk]
        exact objGet_mergeField_ne dst k1 k v1 (fun h => h1 h.symm)

/-- Lookup at a patched key after `_merge`, for patches with unique keys (as
every Python dict has): dict-on-dict merges recursively, the sentinel over a
present non-`None` value is skipped, everything else overwrites. -/
theorem objGet_mergeObjs_some (src : List (String × JVal)) :
    ∀ (dst : List (String × JVal)) (k : String) (v : JVal),
      (src.map Prod.fst).Nodup → objGet src k = some v →
      objGet (mergeObjs dst src) k =
        (match v, objGet dst k with
         | JVal.obj so, some (JVal.obj dobj) => some (JVal.obj (mergeObjs dobj so))
         | _, dv => if isRedactedSentinel v && optIsNonNull dv then dv else some v) := by
  induction src with
  | nil => intro dst k v _ hk; simp [objGet] at hk
  | cons p rest ih =>
      intro dst k v hnodup hk
      obtain ⟨k1, v1⟩ := p
      rw [objGet_cons] at hk
      by_cases h1 : k1 = k
      · rw [if_pos h1] at hk
        injection hk with hk
        subst hk
        subst h1
        have hknotin : k1 ∉ rest.map Prod.fst := by
          rw [List.map_cons] at hnodup
          exact (List.nodup_cons.mp hnodup).1
        have hrest : objGet rest k1 = none := objGet_eq_none_of_not_mem_keys rest k1 hknotin
        rw [mergeObjs, objGet_mergeObjs_untouched rest _ k1 hrest]
        exact objGet_mergeField_self dst k1 _
      · rw [if_neg h1] at hk
        have hnodup2 : (rest.map Prod.fst).Nodup := by
          rw [List.map_cons] at hnodup
          exact (List.nodup_cons.mp hnodup).2
        rw [mergeObjs, ih (mergeField dst k1 v1) k v hnodup2 hk,
          objGet_mergeField_ne dst k1 k v1 (fun h => h1 h.symm)]

/-- Claim C10: `merge_partial_config` preserves the existing value at a key
only when the patch value is the redaction sentinel and the existing value
is present and non-`None`; when the existing value is absent or `None` the
literal sentinel string is stored; nested dict patch values merge
recursively; all other patch values overwrite.  (The Python function
operates on a `json` deep copy, never mutating the existing config; the
embedding is a pure function, so that aspect is intrinsic.) -/
theorem mergePartialConfigSemantics (dst src : List (String × JVal))
    (rm : List (List String)) (k : String) (hnodup : (src.map Prod.fst).Nodup) :
    (objGet src k = none → objGet (mergePartialConfig dst src rm) k = objGet dst k) ∧
    (∀ dv, objGet src k = some redactedJ → objGet dst k = some dv → isNullJ dv = false →
      objGet (mergePartialConfig dst src rm) k = some dv) ∧
    (objGet src k = some redactedJ → (objGet dst k = none ∨ objGet dst k = some JVal.null) →
      objGet (mergePartialConfig dst src rm) k = some redactedJ) ∧
    (∀ so dobj, objGet src k = some (JVal.obj so) → objGet dst k = some (JVal.obj dobj) →
      objGet (mergePartialConfig dst src rm) k = some (JVal.obj (mergeObjs dobj so))) ∧
    (∀ w, objGet src k = some w → isRedactedSentinel w = false → isObjJ w = false →
      objGet (mergePartialConfig dst src rm) k = some w) ∧
    (∀ so, objGet src k = some (JVal.obj so) →
      (∀ dobj, objGet dst k ≠ some (JVal.obj dobj)) →
      objGet (mergePartialConfig dst src rm) k = some (JVal.obj so)) := by
  unfold mergePartialConfig
  refine ⟨fun h => objGet_mergeObjs_untouched src dst k h,
    fun dv hs hd hnull => ?_, fun hs hd => ?_, fun so dobj hs hd => ?_,
    fun w hs hsent hobj => ?_, fun so hs hd => ?_⟩
  · rw [objGet_mergeObjs_some src dst k _ hnodup hs, hd]
    simp [redactedJ, isRedactedSentinel, optIsNonNull, hnull]
  · rw [objGet_mergeObjs_some src dst k _ hnodup hs]
    rcases hd with hd | hd <;>
      simp [hd, redactedJ, isRedactedSentinel, optIsNonNull, isNullJ]
  · rw [objGet_mergeObjs_some src dst k _ hnodup hs, hd]
  · rw [objGet_mergeObjs_some src dst k _ hnodup hs]
    cases w with
    | obj so => simp [isObjJ] at hobj
    | null => simp [isRedactedSentinel, optIsNonNull]
    | str s =>
        simp [isRedactedSentinel] at hsent
        simp [isRedactedSentinel, hsent]
    | num n => simp [isRedactedSentinel]
    | boolean b => simp [isRedactedSentinel]
    | arr items => simp [isRedactedSentinel]
  · rw [objGet_mergeObjs_some src dst k _ hnodup hs]
    cases hdget : objGet dst k with
    | none => simp [isRedactedSentinel]
    | some u =>
        cases u with
        | obj dobj => exact absurd hdget (hd dobj)
        | null => simp [isRedactedSentinel, optIsNonNull, isNullJ]
        | str s => simp [isRedactedSentinel]
        | num n => simp [isRedactedSentinel]
        | boolean b => simp [isRedactedSentinel]
        | arr items => simp [isRedactedSentinel]

/-- Witness for C10 on a concrete config and patch: the sentinel preserves a
present secret, the sentinel over a missing key stores the literal sentinel,
a nested dict merges recursively, and a plain value overwrites. -/
theorem mergePartialConfigSemanticsWitness :
    objGet (mergePartialConfig
        [("api_key", JVal.str "sk-live"), ("temperature", JVal.num 1),
         ("nested", JVal.obj [("b", JVal.num 2)])]
        [("api_key", redactedJ), ("missing", redactedJ), ("temperature", JVal.num 2),
         ("nested", JVal.obj [("a", JVal.num 1)])] []) "api_key" = some (JVal.str "sk-live") ∧
    objGet (mergePartialConfig
        [("api_key", JVal.str "sk-live"), ("temperature", JVal.num 1),
         ("nested", JVal.obj [("b", JVal.num 2)])]
        [("api_key", redactedJ), ("missing", redactedJ), ("temperature", JVal.num 2),
         ("nested", JVal.obj [("a", JVal.num 1)])] []) "missing" = some redactedJ ∧
    objGet (mergePartialConfig
        [("api_key", JVal.str "sk-live"), ("temperature", JVal.num 1),
         ("nested", JVal.obj [("b", JVal.num 2)])]
        [("api_key", redactedJ), ("missing", redactedJ), ("temperature", JVal.num 2),
         ("nested", JVal.obj [("a", JVal.num 1)])] []) "temperature" = some (JVal.num 2) ∧
    objGet (mergePartialConfig
        [("api_key", JVal.str "sk-live"), ("temperature", JVal.num 1),
         ("nested", JVal.obj [("b", JVal.num 2)])]
        [("api_key", redactedJ), ("missing", redactedJ), ("temperature", JVal.num 2),
         ("nested", JVal.obj [("a", JVal.num 1)])] []) "nested" =
      some (JVal.obj (mergeObjs [("b", JVal.num 2)] [("a", JVal.num 1)])) := by
  refine ⟨?_, ?_, ?_, ?_⟩
  · exact (mergePartialConfigSemantics
      [("api_key", JVal.str "sk-live"), ("temperature", JVal.num 1),
       ("nested", JVal.obj [("b", JVal.num 2)])]
      [("api_key", redactedJ), ("missing", redactedJ), ("temperature", JVal.num 2),
       ("nested", JVal.obj [("a", JVal.num 1)])] [] "api_key"
      (by decide)).2.1 (JVal.str "sk-live") rfl rfl rfl
  · exact (mergePartialConfigSemantics
      [("api_key", JVal.str "sk-live"), ("temperature", JVal.num 1),
       ("nested", JVal.obj [("b", JVal.num 2)])]
      [("api_key", redactedJ), ("missing", redactedJ), ("temperature", JVal.num 2),
       ("nested", JVal.obj [("a", JVal.num 1)])] [] "missing"
      (by decide)).2.2.1 rfl (Or.inl rfl)
  · exact (mergePartialConfigSemantics
      [("api_key", JVal.str "sk-live"), ("temperature", JVal.num 1),
       ("nested", JVal.obj [("b", JVal.num 2)])]
      [("api_key", redactedJ), ("missing", redactedJ), ("temperature", JVal.num 2),
       ("nested", JVal.obj [("a", JVal.num 1)])] [] "temperature"
      (by decide)).2.2.2.2.1 (JVal.num 2) rfl rfl rfl
  · exact (mergePartialConfigSemantics
      [("api_key", JVal.str "sk-live"), ("temperature", JVal.num 1),
       ("nested", JVal.obj [("b", JVal.num 2)])]
      [("api_key", redactedJ), ("missing", redactedJ), ("temperature", JVal.num 2),
       ("nested", JVal.obj [("a", JVal.num 1)])] [] "nested"
      (by decide)).2.2.2.1 [("a", JVal.num 1)] [("b", JVal.num 2)] rfl rfl

/-- Path lookup on an object cons-es through the field lookup. -/
theorem getPath_obj_cons (fs : List (String × JVal)) (k : String) (rest : List String) :
    getPath (JVal.obj fs) (k :: rest) =
      (match objGet fs k with
       | some v => getPath v rest
       | none => none) := rfl

/-- A nonempty path only resolves inside an object. -/
theorem getPath_cons_some_obj (u : JVal) (k : String) (rest : List String) (x : JVal)
    (h : getPath u (k :: rest) = some x) : ∃ fs, u = JVal.obj fs := by
  cases u with
  | obj fs => exact ⟨fs, rfl⟩
  | null => simp [getPath] at h
  | str s => simp [getPath] at h
  | num n => simp [getPath] at h
  | boolean b => simp [getPath] at h
  | arr items => simp [getPath] at h

/-- The redaction walk with more than one remaining component descends
through the field lookup. -/
theorem canRedact_cons_nonempty (fs : List (String × JVal)) (a : String) (q2 : List String)
    (hq2 : q2 ≠ []) :
    canRedact (JVal.obj fs) (a :: q2) =
      (match objGet fs a with
       | some v2 => canRedact v2 q2
       | none => false) := by
  cases q2 with
  | nil => exact absurd rfl hq2
  | cons c cs => rfl

/-- The redaction update with more than one remaining component rebuilds
through the field lookup. -/
theorem updateRedact_cons_nonempty (fs : List (String × JVal)) (a : String) (q2 : List String)
    (hq2 : q2 ≠ []) :
    updateRedact (JVal.obj fs) (a :: q2) =
      (match objGet fs a with
       | some v2 => JVal.obj (objSet fs a (updateRedact v2 q2))
       | none => JVal.obj fs) := by
  cases q2 with
  | nil => exact absurd rfl hq2
  | cons c cs => rfl

/-- The redaction walk reaches any path along which lookup succeeds. -/
theorem canRedact_of_getPath_isSome : ∀ (p : List String) (v : JVal), p ≠ [] →
    (getPath v p).isSome → canRedact v p = true := by
  intro p
  induction p with
  | nil => intro v hp _; exact absurd rfl hp
  | cons k rest ih =>
      intro v _ hdef
      obtain ⟨x, hx⟩ := Option.isSome_iff_exists.mp hdef
      obtain ⟨fs, rfl⟩ := getPath_cons_some_obj v k rest x hx
      rw [getPath_obj_cons] at hx
      cases hget : objGet fs k with
      | none => rw [hget] at hx; simp at hx
      | some v2 =>
          rw [hget] at hx
          cases rest with
          | nil => simp [canRedact, hget]
          | cons c cs =>
              rw [canRedact_cons_nonempty fs k (c :: cs) (by simp), hget]
              have hx2 : getPath v2 (c :: cs) = some x := hx
              exact ih v2 (by simp) (by rw [hx2]; rfl)

/-- After the redaction update, lookup at the written path yields the
sentinel. -/
theorem getPath_updateRedact_self : ∀ (p : List String) (v : JVal),
    canRedact v p = true → getPath (updateRedact v p) p = some redactedJ := by
  intro p
  induction p with
  | nil => intro v hcr; simp [canRedact] at hcr
  | cons k rest ih =>
      intro v hcr
      cases v with
      | obj fs =>
          cases rest with
          | nil =>
              simp only [canRedact] at hcr
              simp only [updateRedact, getPath_obj_cons, objGet_objSet_self]
              rfl
          | cons c cs =>
              rw [canRedact_cons_nonempty fs k (c :: cs) (by simp)] at hcr
              cases hget : objGet fs k with
              | none => rw [hget] at hcr; simp at hcr
              | some v2 =>
                  rw [hget] at hcr
                  rw [updateRedact_cons_nonempty fs k (c :: cs) (by simp), hget,
                    getPath_obj_cons, objGet_objSet_self]
                  exact ih v2 hcr
      | null => simp [canRedact] at hcr
      | str s => cases rest <;> simp [canRedact] at hcr
      | num n => cases rest <;> simp [canRedact] at hcr
      | boolean b => cases rest <;> simp [canRedact] at hcr
      | arr items => cases rest <;> simp [canRedact] at hcr

/-- A strict extension of a path holding the sentinel string cannot be
walked: the cursor meets the non-dict sentinel. -/
theorem canRedact_append_of_sentinel : ∀ (p : List String) (v : JVal) (r : List String),
    r ≠ [] → getPath v p = some redactedJ → canRedact v (p ++ r) = false := by
  intro p
  induction p with
  | nil =>
      intro v r hr hdef
      simp [getPath] at hdef
      subst hdef
      cases r with
      | nil => exact absurd rfl hr
      | cons a rs => simp [redactedJ, canRedact]
  | cons k ps ih =>
      intro v r hr hdef
      obtain ⟨fs, rfl⟩ := getPath_cons_some_obj v k ps redactedJ hdef
      rw [getPath_obj_cons] at hdef
      cases hget : objGet fs k with
      | none => rw [hget] at hdef; simp at hdef
      | some v2 =>
          rw [hget] at hdef
          have hdef2 : getPath v2 ps = some redactedJ := hdef
          have hne : ps ++ r ≠ [] := by
            cases r with
            | nil => exact absurd rfl hr
            | cons a rs => simp
          rw [List.cons_append, canRedact_cons_nonempty fs k (ps ++ r) hne, hget]
          exact ih v2 r hr hdef2

/-- Updating a strict extension of `p` keeps lookup at `p` defined: it
returns the correspondingly updated subtree. -/
theorem getPath_updateRedact_prefix : ∀ (p : List String) (v w : JVal) (r : List String),
    r ≠ [] → getPath v p = some w → canRedact v (p ++ r) = true →
    getPath (updateRedact v (p ++ r)) p = some (updateRedact w r) := by
  intro p
  induction p with
  | nil =>
      intro v w r _ hdef _
      simp [getPath] at hdef
      subst hdef
      simp [getPath]
  | cons k ps ih =>
      intro v w r hr hdef hcr
      obtain ⟨fs, rfl⟩ := getPath_cons_some_obj v k ps w hdef
      rw [getPath_obj_cons] at hdef
      cases hget : objGet fs k with
      | none => rw [hget] at hdef; simp at hdef
      | some v2 =>
          rw [hget] at hdef
          have hdef2 : getPath v2 ps = some w := hdef
          have hne : ps ++ r ≠ [] := by
            cases r with
            | nil => exact absurd rfl hr
            | cons a rs => simp
          rw [List.cons_append, canRedact_cons_nonempty fs k (ps ++ r) hne, hget] at hcr
          rw [List.cons_append, updateRedact_cons_nonempty fs k (ps ++ r) hne, hget,
            getPath_obj_cons, objGet_objSet_self]
          exact ih v2 w r hr hdef2 hcr

/-- Redacting a path that neither extends nor is extended by `p` leaves
lookup at `p` unchanged. -/
theorem getPath_setRedactPath_diverge : ∀ (q p : List String) (v : JVal),
    ¬ q.IsPrefix p → ¬ p.IsPrefix q →
    getPath (setRedactPath v q) p = getPath v p := by
  intro q
  induction q with
  | nil => intro p v hq _; exact absurd List.nil_prefix hq
  | cons a q2 ih =>
      intro p v hq hp
      cases p with
      | nil => exact absurd List.nil_prefix hp
      | cons b p2 =>
          cases v with
          | obj fs =>
              by_cases hab : a = b
              · subst hab
                have hq2 : ¬ q2.IsPrefix p2 := by
                  intro h
                  exact hq (List.cons_prefix_cons.mpr ⟨rfl, h⟩)
                have hp2 : ¬ p2.IsPrefix q2 := by
                  intro h
                  exact hp (List.cons_prefix_cons.mpr ⟨rfl, h⟩)
                unfold setRedactPath
                by_cases hcr : canRedact (JVal.obj fs) (a :: q2) = true
                · rw [if_pos hcr]
                  have hq2ne : q2 ≠ [] := by
                    intro h
                    subst h
                    exact hq (List.cons_prefix_cons.mpr ⟨rfl, List.nil_prefix⟩)
                  rw [canRedact_cons_nonempty fs a q2 hq2ne] at hcr
                  cases hget : objGet fs a with
                  | none => rw [hget] at hcr; simp at hcr
                  | some v2 =>
                      rw [hget] at hcr
                      rw [updateRedact_cons_nonempty fs a q2 hq2ne, hget,
                        getPath_obj_cons, getPath_obj_cons, objGet_objSet_self, hget]
                      have hstep := ih p2 v2 hq2 hp2
                      rw [setRedactPath, if_pos hcr] at hstep
                      exact hstep
                · rw [if_neg hcr]
              · unfold setRedactPath
                by_cases hcr : canRedact (JVal.obj fs) (a :: q2) = true
                · rw [if_pos hcr]
                  have hba : b ≠ a := fun h => hab h.symm
                  cases q2 with
                  | nil =>
                      rw [show updateRedact (JVal.obj fs) [a] =
                          JVal.obj (objSet fs a redactedJ) from rfl,
                        getPath_obj_cons, getPath_obj_cons,
                        objGet_objSet_ne fs a b redactedJ hba]
                  | cons c cs =>
                      rw [updateRedact_cons_nonempty fs a (c :: cs) (by simp)]
                      cases hget : objGet fs a with
                      | none => rfl
                      | some v2 =>
                          show getPath
                              (JVal.obj (objSet fs a (updateRedact v2 (c :: cs))))
                              (b :: p2) = getPath (JVal.obj fs) (b :: p2)
                          rw [getPath_obj_cons, getPath_obj_cons,
                            objGet_objSet_ne fs a b _ hba]
                · rw [if_neg hcr]
          | null => simp [setRedactPath, canRedact]
          | str s => simp [setRedactPath, canRedact]
          | num n => simp [setRedactPath, canRedact]
          | boolean b2 => simp [setRedactPath, canRedact]
          | arr items => simp [setRedactPath, canRedact]

/-- One redaction step for a path that is not a proper prefix of `p` keeps
lookup at `p` defined. -/
theorem setRedactPath_keeps_defined (v : JVal) (p q : List String) (x : JVal)
    (hp : p ≠ []) (hdef : getPath v p = some x) (hnp : ¬(q ≠ p ∧ q.IsPrefix p)) :
    ∃ y, getPath (setRedactPath v q) p = some y := by
  by_cases hqp : q = p
  · subst hqp
    have hcr : canRedact v q = true :=
      canRedact_of_getPath_isSome q v hp (by rw [hdef]; rfl)
    rw [setRedactPath, if_pos hcr]
    exact ⟨redactedJ, getPath_updateRedact_self q v hcr⟩
  · have hqnotpre : ¬ q.IsPrefix p := fun h => hnp ⟨hqp, h⟩
    by_cases hpq : p.IsPrefix q
    · obtain ⟨r, rfl⟩ := hpq
      have hrne : r ≠ [] := by
        intro h
        subst h
        exact hqp (List.append_nil p)
      rw [setRedactPath]
      by_cases hcr : canRedact v (p ++ r) = true
      · rw [if_pos hcr]
        exact ⟨_, getPath_updateRedact_prefix p v x r hrne hdef hcr⟩
      · rw [if_neg hcr]
        exact ⟨x, hdef⟩
    · rw [getPath_setRedactPath_diverge q p v hqnotpre hpq]
      exact ⟨x, hdef⟩

/-- One redaction step for a path that is not a proper prefix of `p` keeps
the sentinel at `p`. -/
theorem setRedactPath_keeps_sentinel (v : JVal) (p q : List String)
    (hp : p ≠ []) (hdef : getPath v p = some redactedJ)
    (hnp : ¬(q ≠ p ∧ q.IsPrefix p)) :
    getPath (setRedactPath v q) p = some redactedJ := by
  by_cases hqp : q = p
  · subst hqp
    have hcr : canRedact v q = true :=
      canRedact_of_getPath_isSome q v hp (by rw [hdef]; rfl)
    rw [setRedactPath, if_pos hcr]
    exact getPath_updateRedact_self q v hcr
  · have hqnotpre : ¬ q.IsPrefix p := fun h => hnp ⟨hqp, h⟩
    by_cases hpq : p.IsPrefix q
    · obtain ⟨r, rfl⟩ := hpq
      have hrne : r ≠ [] := by
        intro h
        subst h
        exact hqp (List.append_nil p)
      have hcr : canRedact v (p ++ r) = false :=
        canRedact_append_of_sentinel p v r hrne hdef
      rw [setRedactPath, hcr]
      simp
      exact hdef
    · rw [getPath_setRedactPath_diverge q p v hqnotpre hpq]
      exact hdef

/-- Folding further redaction steps over a config that already shows the
sentinel at `p` keeps it, provided no step is a proper prefix of `p`. -/
theorem foldl_setRedactPath_keeps_sentinel (paths : List (List String)) :
    ∀ (c : JVal) (p : List String), p ≠ [] →
      (∀ q ∈ paths, ¬(q ≠ p ∧ q.IsPrefix p)) →
      getPath c p = some redactedJ →
      getPath (paths.foldl setRedactPath c) p = some redactedJ := by
  induction paths with
  | nil => intro c p _ _ h; exact h
  | cons q rest ih =>
      intro c p hp hnp h
      rw [List.foldl_cons]
      exact ih (setRedactPath c q) p hp
        (fun q2 hq2 => hnp q2 (List.mem_cons_of_mem q hq2))
        (setRedactPath_keeps_sentinel c p q hp h (hnp q (List.mem_cons_self q rest)))

/-- `apply_redaction` puts the sentinel at every recorded secret path that
resolves in the config, provided no other recorded path is a proper prefix
of it. -/
theorem applyRedaction_hits (paths : List (List String)) :
    ∀ (c : JVal) (p : List String) (x : JVal), p ≠ [] → p ∈ paths →
      (∀ q ∈ paths, ¬(q ≠ p ∧ q.IsPrefix p)) →
      getPath c p = some x →
      getPath (applyRedaction c paths) p = some redactedJ := by
  induction paths with
  | nil => intro c p x _ hmem _ _; simp at hmem
  | cons q rest ih =>
      intro c p x hp hmem hnp hdef
      rw [applyRedaction, List.foldl_cons]
      by_cases hqp : q = p
      · subst hqp
        have hcr : canRedact c q = true :=
          canRedact_of_getPath_isSome q c hp (by rw [hdef]; rfl)
        have hred : getPath (setRedactPath c q) q = some redactedJ := by
          rw [setRedactPath, if_pos hcr]
          exact getPath_updateRedact_self q c hcr
        exact foldl_setRedactPath_keeps_sentinel rest (setRedactPath c q) q hp
          (fun q2 hq2 => hnp q2 (List.mem_cons_of_mem q hq2)) hred
      · have hmem2 : p ∈ rest := by
          rcases List.mem_cons.mp hmem with h | h
          · exact absurd h.symm hqp
          · exact h
        obtain ⟨y, hy⟩ := setRedactPath_keeps_defined c p q x hp hdef
          (hnp q (List.mem_cons_self q rest))
        exact ih (setRedactPath c q) p y hp hmem2
          (fun q2 hq2 => hnp q2 (List.mem_cons_of_mem q hq2)) hy

/-- Well-formed field lists have pairwise distinct keys. -/
theorem jwfFields_keys_nodup : ∀ (fs : List (String × JVal)),
    jwfFields fs = true → (fs.map Prod.fst).Nodup := by
  intro fs
  induction fs with
  | nil => intro _; simp
  | cons p rest ih =>
      intro h
      obtain ⟨k, v⟩ := p
      rw [jwfFields] at h
      simp only [Bool.and_eq_true] at h
      obtain ⟨⟨hnot, _⟩, hrest⟩ := h
      rw [List.map_cons, List.nodup_cons]
      constructor
      · intro hmem
        rw [List.mem_map] at hmem
        obtain ⟨q, hq, hqk⟩ := hmem
        rw [Bool.not_eq_true'] at hnot
        rw [List.any_eq_false] at hnot
        exact absurd (by simp [hqk]) (hnot q hq)
      · exact ih hrest

/-- Values inside a well-formed field list are well-formed. -/
theorem jwfFields_objGet : ∀ (fs : List (String × JVal)) (k : String) (u : JVal),
    jwfFields fs = true → objGet fs k = some u → jwf u = true := by
  intro fs
  induction fs with
  | nil => intro k u _ h; simp [objGet] at h
  | cons p rest ih =>
      intro k u hwf h
      obtain ⟨k1, v1⟩ := p
      rw [jwfFields] at hwf
      simp only [Bool.and_eq_true] at hwf
      obtain ⟨⟨_, hv1⟩, hrest⟩ := hwf
      rw [objGet_cons] at h
      by_cases h1 : k1 = k
      · rw [if_pos h1] at h
        injection h with h
        rw [← h]
        exact hv1
      · rw [if_neg h1] at h
        exact ih k u hrest h

/-- A sentinel patch value at a path keeps the existing non-`None` value at
that path through `_merge`. -/
theorem mergeObjs_path_preserve : ∀ (p : List String) (cfg patch : List (String × JVal))
    (v : JVal), jwfFields patch = true →
    getPath (JVal.obj cfg) p = some v → isNullJ v = false →
    getPath (JVal.obj patch) p = some redactedJ →
    p ≠ [] →
    getPath (JVal.obj (mergeObjs cfg patch)) p = some v := by
  intro p
  induction p with
  | nil => intro cfg patch v _ _ _ _ hp; exact absurd rfl hp
  | cons k rest ih =>
      intro cfg patch v hwf hcv hnull hpv _
      rw [getPath_obj_cons] at hcv hpv ⊢
      cases hgc : objGet cfg k with
      | none => rw [hgc] at hcv; simp at hcv
      | some cv =>
          rw [hgc] at hcv
          cases hgp : objGet patch k with
          | none => rw [hgp] at hpv; simp at hpv
          | some pv =>
              rw [hgp] at hpv
              have hcv2 : getPath cv rest = some v := hcv
              have hpv2 : getPath pv rest = some redactedJ := hpv
              have hnodup : (patch.map Prod.fst).Nodup := jwfFields_keys_nodup patch hwf
              cases rest with
              | nil =>
                  simp [getPath] at hcv2 hpv2
                  subst hcv2
                  subst hpv2
                  rw [objGet_mergeObjs_some patch cfg k redactedJ hnodup hgp, hgc]
                  simp [redactedJ, isRedactedSentinel, optIsNonNull, hnull, getPath]
              | cons c cs =>
                  obtain ⟨d1, rfl⟩ := getPath_cons_some_obj cv c cs v hcv2
                  obtain ⟨p1, rfl⟩ := getPath_cons_some_obj pv c cs redactedJ hpv2
                  have hwf1 : jwfFields p1 = true := by
                    have := jwfFields_objGet patch k (JVal.obj p1) hwf hgp
                    rw [jwf] at this
                    exact this
                  rw [objGet_mergeObjs_some patch cfg k (JVal.obj p1) hnodup hgp, hgc]
                  exact ih d1 p1 v hwf1 hcv2 hnull hpv2 (by simp)

/-- A non-sentinel, non-dict patch value at a path overwrites the existing
value at that path through `_merge`. -/
theorem mergeObjs_path_replace : ∀ (p : List String) (cfg patch : List (String × JVal))
    (v w : JVal), jwfFields patch = true →
    getPath (JVal.obj cfg) p = some v →
    getPath (JVal.obj patch) p = some w →
    isRedactedSentinel w = false → isObjJ w = false →
    p ≠ [] →
    getPath (JVal.obj (mergeObjs cfg patch)) p = some w := by
  intro p
  induction p with
  | nil => intro cfg patch v w _ _ _ _ _ hp; exact absurd rfl hp
  | cons k rest ih =>
      intro cfg patch v w hwf hcv hpv hsent hobj _
      rw [getPath_obj_cons] at hcv hpv ⊢
      cases hgc : objGet cfg k with
      | none => rw [hgc] at hcv; simp at hcv
      | some cv =>
          rw [hgc] at hcv
          cases hgp : objGet patch k with
          | none => rw [hgp] at hpv; simp at hpv
          | some pv =>
              rw [hgp] at hpv
              have hcv2 : getPath cv rest = some v := hcv
              have hpv2 : getPath pv rest = some w := hpv
              have hnodup : (patch.map Prod.fst).Nodup := jwfFields_keys_nodup patch hwf
              cases rest with
              | nil =>
                  simp [getPath] at hcv2 hpv2
                  subst hcv2
                  subst hpv2
                  rw [objGet_mergeObjs_some patch cfg k pv hnodup hgp, hgc]
                  cases pv with
                  | obj so => simp [isObjJ] at hobj
                  | null => simp [isRedactedSentinel, optIsNonNull, getPath]
                  | str s =>
                      simp [isRedactedSentinel] at hsent
                      simp [isRedactedSentinel, hsent, getPath]
                  | num n => simp [isRedactedSentinel, getPath]
                  | boolean b => simp [isRedactedSentinel, getPath]
                  | arr items => simp [isRedactedSentinel, getPath]
              | cons c cs =>
                  obtain ⟨d1, rfl⟩ := getPath_cons_some_obj cv c cs v hcv2
                  obtain ⟨p1, rfl⟩ := getPath_cons_some_obj pv c cs w hpv2
                  have hwf1 : jwfFields p1 = true := by
                    have := jwfFields_objGet patch k (JVal.obj p1) hwf hgp
                    rw [jwf] at this
                    exact this
                  rw [objGet_mergeObjs_some patch cfg k (JVal.obj p1) hnodup hgp, hgc]
                  exact ih d1 p1 v w hwf1 hcv2 hpv2 hsent hobj (by simp)

/-- Claim C5: for a model whose decrypted config holds a secret value at a
recorded secret path, a read (`_to_response_dict`: decrypt then
`apply_redaction`) returns the sentinel in place of the value; an update
(`AIModelService.update`: decrypt, `merge_partial_config`, re-encrypt) with
the sentinel at that path keeps the stored decrypted value unchanged, while
a non-sentinel patch value replaces it.  Recorded paths come from
`collect_redacted_paths`, which never records a path that is a proper
prefix of another recorded path, hence the prefix-freeness hypothesis;
encryption is an external bijection (`decrypt(encrypt(x)) = x`), so the
stored config is modelled by its plaintext. -/
theorem secretRedactionRoundTrip (cfg patch : List (String × JVal))
    (paths : List (List String)) (rm : List (List String)) (p : List String) (v : JVal)
    (hp : p ≠ []) (hmem : p ∈ paths)
    (hnopre : ∀ q ∈ paths, ¬(q ≠ p ∧ q.IsPrefix p))
    (hwfpatch : jwfFields patch = true)
    (hdef : getPath (JVal.obj cfg) p = some v)
    (hnull : isNullJ v = false) :
    (getPath (applyRedaction (JVal.obj cfg) paths) p = some redactedJ) ∧
    (getPath (JVal.obj patch) p = some redactedJ →
      getPath (JVal.obj (mergePartialConfig cfg patch rm)) p = some v) ∧
    (∀ w, getPath (JVal.obj patch) p = some w → isRedactedSentinel w = false →
      isObjJ w = false →
      getPath (JVal.obj (mergePartialConfig cfg patch rm)) p = some w) := by
  refine ⟨applyRedaction_hits paths (JVal.obj cfg) p v hp hmem hnopre hdef,
    fun hpv => ?_, fun w hpv hsent hobj => ?_⟩
  · unfold mergePartialConfig
    exact mergeObjs_path_preserve p cfg patch v hwfpatch hdef hnull hpv hp
  · unfold mergePartialConfig
    exact mergeObjs_path_replace p cfg patch v w hwfpatch hdef hpv hsent hobj hp

/-- Witness for C5 on the spec's P5 example: an `api_key` secret is masked
on read, preserved by a sentinel patch, and replaced by a fresh secret. -/
theorem secretRedactionRoundTripWitness :
    getPath (applyRedaction
        (JVal.obj [("api_key", JVal.str "sk-live-xxx"), ("base_url", JVal.str "u")])
        [["api_key"]]) ["api_key"] = some redactedJ ∧
    getPath (JVal.obj (mergePartialConfig
        [("api_key", JVal.str "sk-live-xxx"), ("base_url", JVal.str "u")]
        [("api_key", redactedJ)] [["api_key"]])) ["api_key"] =
      some (JVal.str "sk-live-xxx") ∧
    getPath (JVal.obj (mergePartialConfig
        [("api_key", JVal.str "sk-live-xxx"), ("base_url", JVal.str "u")]
        [("api_key", JVal.str "sk-new")] [["api_key"]])) ["api_key"] =
      some (JVal.str "sk-new") := by
  refine ⟨?_, ?_, ?_⟩
  · exact (secretRedactionRoundTrip
      [("api_key", JVal.str "sk-live-xxx"), ("base_url", JVal.str "u")]
      [("api_key", redactedJ)] [["api_key"]] [["api_key"]] ["api_key"]
      (JVal.str "sk-live-xxx") (by simp)
      (by simp)
      (by intro q hq; rw [List.mem_singleton] at hq; subst hq; exact fun h => h.1 rfl)
      (by decide) rfl rfl).1
  · exact (secretRedactionRoundTrip
      [("api_key", JVal.str "sk-live-xxx"), ("base_url", JVal.str "u")]
      [("api_key", redactedJ)] [["api_key"]] [["api_key"]] ["api_key"]
      (JVal.str "sk-live-xxx") (by simp)
      (by simp)
      (by intro q hq; rw [List.mem_singleton] at hq; subst hq; exact fun h => h.1 rfl)
      (by decide) rfl rfl).2.1 rfl
  · exact (secretRedactionRoundTrip
      [("api_key", JVal.str "sk-live-xxx"), ("base_url", JVal.str "u")]
      [("api_key", JVal.str "sk-new")] [["api_key"]] [["api_key"]] ["api_key"]
      (JVal.str "sk-live-xxx") (by simp)
      (by simp)
      (by intro q hq; rw [List.mem_singleton] at hq; subst hq; exact fun h => h.1 rfl)
      (by decide) rfl rfl).2.2 (JVal.str "sk-new") rfl (by decide) (by decide)

/-- Adjacency membership is edge membership. -/
theorem mem_adjOf (edges : List (String × String)) (u v : String) :
    v ∈ adjOf edges u ↔ (u, v) ∈ edges := by
  unfold adjOf
  rw [List.mem_map]
  constructor
  · rintro ⟨e, he, rfl⟩
    rw [List.mem_filter] at he
    obtain ⟨he1, he2⟩ := he
    simp at he2
    rwa [show e = (u, e.2) from Prod.ext he2 rfl] at he1
  · intro h
    exact ⟨(u, v), List.mem_filter.mpr ⟨h, by simp⟩, rfl⟩

/-- Accumulating edge sources only grows the key list. -/
theorem graphKeys_foldl_mono (edges : List (String × String)) :
    ∀ (acc : List String) (x : String), x ∈ acc →
      x ∈ edges.foldl (fun acc e => if e.1 ∈ acc then acc else acc ++ [e.1]) acc := by
  induction edges with
  | nil => intro acc x hx; exact hx
  | cons e rest ih =>
      intro acc x hx
      rw [List.foldl_cons]
      by_cases he : e.1 ∈ acc
      · rw [if_pos he]; exact ih acc x hx
      · rw [if_neg he]; exact ih (acc ++ [e.1]) x (List.mem_append_left _ hx)

/-- Every edge source is a key of the adjacency dict. -/
theorem edge_src_mem_graphKeys (nodes : List String) (edges : List (String × String)) :
    ∀ e ∈ edges, e.1 ∈ graphKeys nodes edges := by
  unfold graphKeys
  have hgen : ∀ (es : List (String × String)) (acc : List String), ∀ e ∈ es,
      e.1 ∈ es.foldl (fun acc e => if e.1 ∈ acc then acc else acc ++ [e.1]) acc := by
    intro es
    induction es with
    | nil => intro acc e he; simp at he
    | cons e2 rest ih =>
        intro acc e he
        rw [List.foldl_cons]
        rcases List.mem_cons.mp he with rfl | hmem
        · by_cases h2 : e.1 ∈ acc
          · rw [if_pos h2]
            exact graphKeys_foldl_mono rest acc e.1 h2
          · rw [if_neg h2]
            exact graphKeys_foldl_mono rest (acc ++ [e.1]) e.1
              (List.mem_append_right _ (by simp))
        · by_cases h2 : e2.1 ∈ acc
          · rw [if_pos h2]; exact ih acc e hmem
          · rw [if_neg h2]; exact ih (acc ++ [e2.1]) e hmem
  exact hgen edges (dedupFirst nodes)

/-- Membership is preserved by duplicate dropping. -/
theorem mem_dedupFirst : ∀ (l : List String) (x : String), x ∈ dedupFirst l ↔ x ∈ l := by
  intro l
  induction l using dedupFirst.induct with
  | case1 => intro x; rw [dedupFirst]
  | case2 a xs ih =>
      intro x
      rw [dedupFirst, List.mem_cons, ih x, List.mem_filter, List.mem_cons]
      by_cases hx : x = a
      · simp [hx]
      · simp [hx]

/-- Duplicate dropping yields pairwise distinct elements. -/
theorem dedupFirst_nodup : ∀ (l : List String), (dedupFirst l).Nodup := by
  intro l
  induction l using dedupFirst.induct with
  | case1 => rw [dedupFirst]; exact List.nodup_nil
  | case2 a xs ih =>
      rw [dedupFirst, List.nodup_cons]
      refine ⟨fun hmem => ?_, ih⟩
      rw [mem_dedupFirst, List.mem_filter] at hmem
      simp at hmem

/-- Keys of the adjacency dict lie in the traversal universe. -/
theorem graphKeys_subset_universe (nodes : List String) (edges : List (String × String)) :
    ∀ x ∈ graphKeys nodes edges, x ∈ nodeUniverse nodes edges := by
  intro x hx
  unfold nodeUniverse
  rw [mem_dedupFirst]
  exact List.mem_append_left _ hx

/-- Edge targets lie in the traversal universe. -/
theorem adj_subset_universe (nodes : List String) (edges : List (String × String)) :
    ∀ u v, v ∈ adjOf edges u → v ∈ nodeUniverse nodes edges := by
  intro u v hv
  rw [mem_adjOf] at hv
  unfold nodeUniverse
  rw [mem_dedupFirst]
  apply List.mem_append_right
  rw [List.mem_map]
  exact ⟨(u, v), hv, rfl⟩

/-- Turning one satisfied element of a duplicate-free list into an
unsatisfied one drops the filter count by exactly one. -/
theorem filter_count_decrease (U : List String) (hnodup : U.Nodup) (u : String)
    (hu : u ∈ U) (p q : String → Bool) (hpu : p u = true) (hqu : q u = false)
    (hother : ∀ x, x ≠ u → p x = q x) :
    (U.filter q).length + 1 = (U.filter p).length := by
  induction U with
  | nil => simp at hu
  | cons a rest ih =>
      rw [List.nodup_cons] at hnodup
      obtain ⟨hna, hnrest⟩ := hnodup
      rcases List.mem_cons.mp hu with rfl | hmem
      · rw [List.filter_cons, List.filter_cons, hpu, hqu]
        have hcong : rest.filter p = rest.filter q := by
          apply List.filter_congr
          intro x hx
          exact hother x (fun h => hna (h ▸ hx))
        simp [hcong]
      · have hau : a ≠ u := fun h => hna (h ▸ hmem)
        rw [List.filter_cons, List.filter_cons, hother a hau]
        have hih := ih hnrest hmem
        cases hqa : q a with
        | true => simp [hqa]; omega
        | false => simp [hqa]; omega

/-- Structural facts about a successful traversal: the set of in-progress
nodes is exactly preserved, done nodes stay done, and every argument node
(or successor-list node) ends done. -/
theorem dfs_struct (adj : String → List String) : ∀ fuel : Nat,
    (∀ u m m2, dfsA adj fuel u m = some (Except.ok m2) →
      (∀ x, vget m2 x = 1 ↔ vget m x = 1) ∧ (∀ x, vget m x = 2 → vget m2 x = 2) ∧
      vget m2 u = 2) ∧
    (∀ l m m2, dfsL adj fuel l m = some (Except.ok m2) →
      (∀ x, vget m2 x = 1 ↔ vget m x = 1) ∧ (∀ x, vget m x = 2 → vget m2 x = 2) ∧
      (∀ v ∈ l, vget m2 v = 2)) := by
  intro fuel
  induction fuel with
  | zero =>
      constructor
      · intro u m m2 h
        rw [dfsA] at h
        exact absurd h (by simp)
      · intro l m m2 h
        cases l with
        | nil =>
            rw [dfsL] at h
            simp at h
            subst h
            exact ⟨fun x => Iff.rfl, fun x hx => hx, by simp⟩
        | cons v vs =>
            rw [dfsL, dfsA] at h
            exact absurd h (by simp)
  | succ fuel ih =>
      obtain ⟨ihA, ihL⟩ := ih
      have hA : ∀ u m m2, dfsA adj (fuel + 1) u m = some (Except.ok m2) →
          (∀ x, vget m2 x = 1 ↔ vget m x = 1) ∧ (∀ x, vget m x = 2 → vget m2 x = 2) ∧
          vget m2 u = 2 := by
        intro u m m2 h
        rw [dfsA] at h
        by_cases h1 : vget m u = 1
        · rw [if_pos h1] at h
          exact absurd h (by simp)
        · rw [if_neg h1] at h
          by_cases h2 : vget m u = 2
          · rw [if_pos h2] at h
            simp at h
            subst h
            exact ⟨fun x => Iff.rfl, fun x hx => hx, h2⟩
          · rw [if_neg h2] at h
            cases hL : dfsL adj fuel (adj u) (vset m u 1) with
            | none => rw [hL] at h; exact absurd h (by simp)
            | some r =>
                rw [hL] at h
                cases r with
                | error e => exact absurd h (by simp)
                | ok m3 =>
                    simp at h
                    subst h
                    obtain ⟨g3, b3, _⟩ := ihL (adj u) (vset m u 1) m3 hL
                    refine ⟨fun x => ?_, fun x hx => ?_, vget_vset_self m3 u 2⟩
                    · by_cases hxu : x = u
                      · subst hxu
                        rw [vget_vset_self m3 x 2]
                        constructor
                        · intro hc; exact absurd hc (by simp)
                        · intro hc; exact absurd hc h1
                      · rw [vget_vset_ne m3 u x 2 hxu, g3 x,
                          vget_vset_ne m u x 1 hxu]
                    · have hxu : x ≠ u := fun hc => h2 (hc ▸ hx)
                      rw [vget_vset_ne m3 u x 2 hxu]
                      apply b3
                      rw [vget_vset_ne m u x 1 hxu]
                      exact hx
      refine ⟨hA, ?_⟩
      intro l
      induction l with
      | nil =>
          intro m m2 h
          rw [dfsL] at h
          simp at h
          subst h
          exact ⟨fun x => Iff.rfl, fun x hx => hx, by simp⟩
      | cons v vs ihl =>
          intro m m2 h
          rw [dfsL] at h
          cases hv : dfsA adj (fuel + 1) v m with
          | none => rw [hv] at h; exact absurd h (by simp)
          | some r =>
              rw [hv] at h
              cases r with
              | error e => exact absurd h (by simp)
              | ok m3 =>
                  obtain ⟨gv, bv, uv⟩ := hA v m m3 hv
                  obtain ⟨gl, bl, ul⟩ := ihl m3 m2 h
                  refine ⟨fun x => (gl x).trans (gv x), fun x hx => bl x (bv x hx),
                    fun w hw => ?_⟩
                  rcases List.mem_cons.mp hw with rfl | hmem
                  · exact bl w uv
                  · exact ul w hmem

/-- Fuel sufficiency: with more fuel than there are nodes of the universe
not currently in progress, the traversal cannot run out of fuel.  Each
nesting level marks a fresh universe node in progress. -/
theorem dfs_fuel_sufficient (adj : String → List String) (U : List String)
    (hU : U.Nodup) (hadj : ∀ u v, v ∈ adj u → v ∈ U) : ∀ fuel : Nat,
    (∀ u m, u ∈ U →
      (U.filter (fun x => vget m x ≠ 1)).length < fuel → dfsA adj fuel u m ≠ none) ∧
    (∀ l m, (∀ v ∈ l, v ∈ U) →
      (U.filter (fun x => vget m x ≠ 1)).length < fuel → dfsL adj fuel l m ≠ none) := by
  intro fuel
  induction fuel with
  | zero =>
      constructor
      · intro u m _ hcount
        exact absurd hcount (by simp)
      · intro l m _ hcount
        exact absurd hcount (by simp)
  | succ fuel ih =>
      obtain ⟨ihA, ihL⟩ := ih
      have hA : ∀ u m, u ∈ U →
          (U.filter (fun x => vget m x ≠ 1)).length < fuel + 1 →
          dfsA adj (fuel + 1) u m ≠ none := by
        intro u m hu hcount
        rw [dfsA]
        by_cases h1 : vget m u = 1
        · rw [if_pos h1]; simp
        · rw [if_neg h1]
          by_cases h2 : vget m u = 2
          · rw [if_pos h2]; simp
          · rw [if_neg h2]
            have hdec : (U.filter (fun x => vget (vset m u 1) x ≠ 1)).length + 1 =
                (U.filter (fun x => vget m x ≠ 1)).length := by
              apply filter_count_decrease U hU u hu
              · simp [h1]
              · simp [vget_vset_self m u 1]
              · intro x hx
                simp [vget_vset_ne m u x 1 hx]
            have hL : dfsL adj fuel (adj u) (vset m u 1) ≠ none := by
              apply ihL (adj u) (vset m u 1) (fun v hv => hadj u v hv)
              omega
            cases hLr : dfsL adj fuel (adj u) (vset m u 1) with
            | none => exact absurd hLr hL
            | some r => cases r <;> simp
      refine ⟨hA, ?_⟩
      intro l
      induction l with
      | nil =>
          intro m _ _
          rw [dfsL]
          simp
      | cons v vs ihl =>
          intro m hl hcount
          rw [dfsL]
          have hv : dfsA adj (fuel + 1) v m ≠ none :=
            hA v m (hl v (List.mem_cons_self v vs)) hcount
          cases hvr : dfsA adj (fuel + 1) v m with
          | none => exact absurd hvr hv
          | some r =>
              cases r with
              | error e => simp
              | ok m3 =>
                  have hgray := ((dfs_struct adj (fuel + 1)).1 v m m3 hvr).1
                  have hsame : U.filter (fun x => vget m3 x ≠ 1) =
                      U.filter (fun x => vget m x ≠ 1) := by
                    apply List.filter_congr
                    intro x _
                    simp only [ne_eq, hgray x]
                  exact ihl m3 (fun w hw => hl w (List.mem_cons_of_mem v hw))
                    (by rw [hsame]; exact hcount)

/-- Soundness of the cycle error: when every in-progress node has a nonempty
path to the current node, raising on an in-progress node exhibits a cycle. -/
theorem dfs_sound (edges : List (String × String)) : ∀ fuel : Nat,
    (∀ u m e, dfsA (adjOf edges) fuel u m = some (Except.error e) →
      (∀ g, vget m g = 1 → PathPos edges g u) → ∃ w, PathPos edges w w) ∧
    (∀ l m e, dfsL (adjOf edges) fuel l m = some (Except.error e) →
      (∀ v ∈ l, ∀ g, vget m g = 1 → PathPos edges g v) → ∃ w, PathPos edges w w) := by
  intro fuel
  induction fuel with
  | zero =>
      constructor
      · intro u m e h _
        rw [dfsA] at h
        exact absurd h (by simp)
      · intro l m e h _
        cases l with
        | nil => rw [dfsL] at h; exact absurd h (by simp)
        | cons v vs => rw [dfsL, dfsA] at h; exact absurd h (by simp)
  | succ fuel ih =>
      obtain ⟨_, ihL⟩ := ih
      have hA : ∀ u m e, dfsA (adjOf edges) (fuel + 1) u m = some (Except.error e) →
          (∀ g, vget m g = 1 → PathPos edges g u) → ∃ w, PathPos edges w w := by
        intro u m e h hinv
        rw [dfsA] at h
        by_cases h1 : vget m u = 1
        · exact ⟨u, hinv u h1⟩
        · rw [if_neg h1] at h
          by_cases h2 : vget m u = 2
          · rw [if_pos h2] at h
            exact absurd h (by simp)
          · rw [if_neg h2] at h
            cases hL : dfsL (adjOf edges) fuel (adjOf edges u) (vset m u 1) with
            | none => rw [hL] at h; exact absurd h (by simp)
            | some r =>
                rw [hL] at h
                cases r with
                | ok m3 => exact absurd h (by simp)
                | error e2 =>
                    apply ihL (adjOf edges u) (vset m u 1) e2 hL
                    intro v hv g hg
                    have hedge : edgeStep edges u v := (mem_adjOf edges u v).mp hv
                    by_cases hgu : g = u
                    · subst hgu
                      exact PathPos.single hedge
                    · rw [vget_vset_ne m u g 1 hgu] at hg
                      exact PathPos.tail (hinv g hg) hedge
      refine ⟨hA, ?_⟩
      intro l
      induction l with
      | nil =>
          intro m e h _
          rw [dfsL] at h
          exact absurd h (by simp)
      | cons v vs ihl =>
          intro m e h hinv
          rw [dfsL] at h
          cases hv : dfsA (adjOf edges) (fuel + 1) v m with
          | none => rw [hv] at h; exact absurd h (by simp)
          | some r =>
              rw [hv] at h
              cases r with
              | error e2 =>
                  exact hA v m e2 hv (fun g hg => hinv v (List.mem_cons_self v vs) g hg)
              | ok m3 =>
                  apply ihl m3 e h
                  intro v2 hv2 g hg
                  have hgray := ((dfs_struct (adjOf edges) (fuel + 1)).1 v m m3 hv).1
                  exact hinv v2 (List.mem_cons_of_mem v hv2) g ((hgray g).mp hg)

/-- Index of a freshly appended element. -/
theorem indexOf_append_singleton (L : List String) (u : String) (h : u ∉ L) :
    (L ++ [u]).indexOf u = L.length := by
  induction L with
  | nil => simp [List.indexOf_cons_self]
  | cons a rest ih =>
      have hau : u ≠ a := by
        rintro rfl
        exact h (by simp)
      rw [List.cons_append]
      have hrest : u ∉ rest := fun hm => h (List.mem_cons_of_mem a hm)
      simp [List.indexOf_cons_ne _ (Ne.symm hau), ih hrest]

/-- Value range of a successful traversal: every node either keeps its color
or ends done. -/
theorem dfs_range (adj : String → List String) : ∀ fuel : Nat,
    (∀ u m m2, dfsA adj fuel u m = some (Except.ok m2) →
      ∀ x, vget m2 x = vget m x ∨ vget m2 x = 2) ∧
    (∀ l m m2, dfsL adj fuel l m = some (Except.ok m2) →
      ∀ x, vget m2 x = vget m x ∨ vget m2 x = 2) := by
  intro fuel
  induction fuel with
  | zero =>
      constructor
      · intro u m m2 h
        rw [dfsA] at h
        exact absurd h (by simp)
      · intro l m m2 h
        cases l with
        | nil =>
            rw [dfsL] at h
            simp at h
            subst h
            exact fun x => Or.inl rfl
        | cons v vs =>
            rw [dfsL, dfsA] at h
            exact absurd h (by simp)
  | succ fuel ih =>
      obtain ⟨_, ihL⟩ := ih
      have hA : ∀ u m m2, dfsA adj (fuel + 1) u m = some (Except.ok m2) →
          ∀ x, vget m2 x = vget m x ∨ vget m2 x = 2 := by
        intro u m m2 h
        rw [dfsA] at h
        by_cases h1 : vget m u = 1
        · rw [if_pos h1] at h
          exact absurd h (by simp)
        · rw [if_neg h1] at h
          by_cases h2 : vget m u = 2
          · rw [if_pos h2] at h
            simp at h
            subst h
            exact fun x => Or.inl rfl
          · rw [if_neg h2] at h
            cases hL : dfsL adj fuel (adj u) (vset m u 1) with
            | none => rw [hL] at h; exact absurd h (by simp)
            | some r =>
                rw [hL] at h
                cases r with
                | error e => exact absurd h (by simp)
                | ok m3 =>
                    simp at h
                    subst h
                    intro x
                    by_cases hxu : x = u
                    · subst hxu
                      exact Or.inr (vget_vset_self m3 x 2)
                    · rw [vget_vset_ne m3 u x 2 hxu]
                      rcases ihL (adj u) (vset m u 1) m3 hL x with h3 | h3
                      · rw [h3, vget_vset_ne m u x 1 hxu]
                        exact Or.inl rfl
                      · exact Or.inr h3
      refine ⟨hA, ?_⟩
      intro l
      induction l with
      | nil =>
          intro m m2 h
          rw [dfsL] at h
          simp at h
          subst h
          exact fun x => Or.inl rfl
      | cons v vs ihl =>
          intro m m2 h
          rw [dfsL] at h
          cases hv : dfsA adj (fuel + 1) v m with
          | none => rw [hv] at h; exact absurd h (by simp)
          | some r =>
              rw [hv] at h
              cases r with
              | error e => exact absurd h (by simp)
              | ok m3 =>
                  intro x
                  rcases ihl m3 m2 h x with h3 | h3
                  · rw [h3]
                    exact hA v m m3 hv x
                  · exact Or.inr h3

/-- A successful traversal extends the finish list while keeping the
topological-order invariant. -/
theorem dfs_topo (adj : String → List String) : ∀ fuel : Nat,
    (∀ u m m2 L, dfsA adj fuel u m = some (Except.ok m2) → TopoInv adj m L →
      ∃ L2, TopoInv adj m2 L2 ∧ L <+: L2) ∧
    (∀ l m m2 L, dfsL adj fuel l m = some (Except.ok m2) → TopoInv adj m L →
      ∃ L2, TopoInv adj m2 L2 ∧ L <+: L2) := by
  intro fuel
  induction fuel with
  | zero =>
      constructor
      · intro u m m2 L h _
        rw [dfsA] at h
        exact absurd h (by simp)
      · intro l m m2 L h hinv
        cases l with
        | nil =>
            rw [dfsL] at h
            simp at h
            subst h
            exact ⟨L, hinv, List.prefix_refl L⟩
        | cons v vs =>
            rw [dfsL, dfsA] at h
            exact absurd h (by simp)
  | succ fuel ih =>
      obtain ⟨_, ihL⟩ := ih
      have hA : ∀ u m m2 L, dfsA adj (fuel + 1) u m = some (Except.ok m2) →
          TopoInv adj m L → ∃ L2, TopoInv adj m2 L2 ∧ L <+: L2 := by
        intro u m m2 L h hinv
        obtain ⟨hnodup, hblack, horder⟩ := hinv
        rw [dfsA] at h
        by_cases h1 : vget m u = 1
        · rw [if_pos h1] at h
          exact absurd h (by simp)
        · rw [if_neg h1] at h
          by_cases h2 : vget m u = 2
          · rw [if_pos h2] at h
            simp at h
            subst h
            exact ⟨L, ⟨hnodup, hblack, horder⟩, List.prefix_refl L⟩
          · rw [if_neg h2] at h
            cases hL : dfsL adj fuel (adj u) (vset m u 1) with
            | none => rw [hL] at h; exact absurd h (by simp)
            | some r =>
                rw [hL] at h
                cases r with
                | error e => exact absurd h (by simp)
                | ok m3 =>
                    simp at h
                    subst h
                    have hinv1 : TopoInv adj (vset m u 1) L := by
                      refine ⟨hnodup, fun x => ?_, horder⟩
                      by_cases hxu : x = u
                      · subst hxu
                        rw [vget_vset_self m x 1]
                        constructor
                        · intro hc; exact absurd hc (by simp)
                        · intro hc
                          exact absurd ((hblack x).mpr hc) h2
                      · rw [vget_vset_ne m u x 1 hxu]
                        exact hblack x
                    obtain ⟨L3, hinv3, hpre3⟩ := ihL (adj u) (vset m u 1) m3 L hL hinv1
                    obtain ⟨hnodup3, hblack3, horder3⟩ := hinv3
                    have hsucc : ∀ v ∈ adj u, vget m3 v = 2 :=
                      ((dfs_struct adj fuel).2 (adj u) (vset m u 1) m3 hL).2.2
                    have hugray : vget m3 u = 1 := by
                      have := ((dfs_struct adj fuel).2 (adj u) (vset m u 1) m3 hL).1 u
                      rw [vget_vset_self m u 1] at this
                      exact this.mpr rfl
                    have hunotin : u ∉ L3 := by
                      intro hmem
                      have := (hblack3 u).mpr hmem
                      rw [hugray] at this
                      exact absurd this (by simp)
                    refine ⟨L3 ++ [u], ⟨?_, fun x => ?_, ?_⟩, ?_⟩
                    · exact List.Nodup.append hnodup3 (List.nodup_singleton u)
                        (fun a ha hau => hunotin ((List.mem_singleton.mp hau) ▸ ha))
                    · by_cases hxu : x = u
                      · subst hxu
                        rw [vget_vset_self m3 x 2]
                        simp
                      · rw [vget_vset_ne m3 u x 2 hxu]
                        rw [hblack3 x]
                        constructor
                        · intro hc; exact List.mem_append_left _ hc
                        · intro hc
                          rcases List.mem_append.mp hc with hc | hc
                          · exact hc
                          · exact absurd (List.mem_singleton.mp hc) hxu
                    · intro a ha v hv
                      rcases List.mem_append.mp ha with ha2 | ha2
                      · obtain ⟨hvmem, hvlt⟩ := horder3 a ha2 v hv
                        refine ⟨List.mem_append_left _ hvmem, ?_⟩
                        rw [List.indexOf_append_of_mem hvmem,
                          List.indexOf_append_of_mem ha2]
                        exact hvlt
                      · have hau : a = u := List.mem_singleton.mp ha2
                        subst hau
                        have hvblack := hsucc v hv
                        have hvmem : v ∈ L3 := (hblack3 v).mp hvblack
                        refine ⟨List.mem_append_left _ hvmem, ?_⟩
                        rw [List.indexOf_append_of_mem hvmem,
                          indexOf_append_singleton L3 a hunotin]
                        exact List.indexOf_lt_length.mpr hvmem
                    · exact hpre3.trans (List.prefix_append L3 [u])
      refine ⟨hA, ?_⟩
      intro l
      induction l with
      | nil =>
          intro m m2 L h hinv
          rw [dfsL] at h
          simp at h
          subst h
          exact ⟨L, hinv, List.prefix_refl L⟩
      | cons v vs ihl =>
          intro m m2 L h hinv
          rw [dfsL] at h
          cases hv : dfsA adj (fuel + 1) v m with
          | none => rw [hv] at h; exact absurd h (by simp)
          | some r =>
              rw [hv] at h
              cases r with
              | error e => exact absurd h (by simp)
              | ok m3 =>
                  obtain ⟨L3, hinv3, hpre3⟩ := hA v m m3 L hv hinv
                  obtain ⟨L2, hinv2, hpre2⟩ := ihl m3 m2 L3 h hinv3
                  exact ⟨L2, hinv2, hpre3.trans hpre2⟩

/-- The top-level loop preserves the invariant and finishes every processed
key, starting from a gray-free, well-colored map. -/
theorem dfsTop_topo (adj : String → List String) (fuel : Nat) :
    ∀ (keys : List String) (m m2 : VMap) (L : List String),
      dfsTop adj fuel keys m = some (Except.ok m2) → TopoInv adj m L →
      (∀ x, vget m x = 0 ∨ vget m x = 2) →
      ∃ L2, TopoInv adj m2 L2 ∧ L <+: L2 ∧ (∀ k ∈ keys, vget m2 k = 2) := by
  intro keys
  induction keys with
  | nil =>
      intro m m2 L h hinv _
      rw [dfsTop] at h
      simp at h
      subst h
      exact ⟨L, hinv, List.prefix_refl L, by simp⟩
  | cons k ks ih =>
      intro m m2 L h hinv hwf
      rw [dfsTop] at h
      by_cases h0 : vget m k = 0
      · rw [if_pos h0] at h
        cases hk : dfsA adj fuel k m with
        | none => rw [hk] at h; exact absurd h (by simp)
        | some r =>
            rw [hk] at h
            cases r with
            | error e => exact absurd h (by simp)
            | ok m1 =>
                obtain ⟨L1, hinv1, hpre1⟩ := (dfs_topo adj fuel).1 k m m1 L hk hinv
                have hwf1 : ∀ x, vget m1 x = 0 ∨ vget m1 x = 2 := by
                  intro x
                  rcases (dfs_range adj fuel).1 k m m1 hk x with hr | hr
                  · rw [hr]; exact hwf x
                  · exact Or.inr hr
                obtain ⟨L2, hinv2, hpre2, hks⟩ := ih m1 m2 L1 h hinv1 hwf1
                refine ⟨L2, hinv2, hpre1.trans hpre2, fun k2 hk2 => ?_⟩
                rcases List.mem_cons.mp hk2 with rfl | hmem
                · have hk1black : vget m1 k2 = 2 :=
                    ((dfs_struct adj fuel).1 k2 m m1 hk).2.2
                  have : k2 ∈ L1 := (hinv1.2.1 k2).mp hk1black
                  exact (hinv2.2.1 k2).mpr (hpre2.subset this)
                · exact hks k2 hmem
      · rw [if_neg h0] at h
        obtain ⟨L2, hinv2, hpre2, hks⟩ := ih m m2 L h hinv hwf
        refine ⟨L2, hinv2, hpre2, fun k2 hk2 => ?_⟩
        rcases List.mem_cons.mp hk2 with rfl | hmem
        · have hblack : vget m k2 = 2 := (hwf k2).resolve_left h0
          have : k2 ∈ L := (hinv.2.1 k2).mp hblack
          exact (hinv2.2.1 k2).mpr (hpre2.subset this)
        · exact hks k2 hmem

/-- An error raised by the top-level loop exhibits a cycle, starting from a
gray-free map. -/
theorem dfsTop_sound (edges : List (String × String)) (fuel : Nat) :
    ∀ (keys : List String) (m : VMap) (e : Unit),
      dfsTop (adjOf edges) fuel keys m = some (Except.error e) →
      (∀ x, vget m x ≠ 1) → ∃ w, PathPos edges w w := by
  intro keys
  induction keys with
  | nil =>
      intro m e h _
      rw [dfsTop] at h
      exact absurd h (by simp)
  | cons k ks ih =>
      intro m e h hgray
      rw [dfsTop] at h
      by_cases h0 : vget m k = 0
      · rw [if_pos h0] at h
        cases hk : dfsA (adjOf edges) fuel k m with
        | none => rw [hk] at h; exact absurd h (by simp)
        | some r =>
            rw [hk] at h
            cases r with
            | error e2 =>
                exact (dfs_sound edges fuel).1 k m e2 hk
                  (fun g hg => absurd hg (hgray g))
            | ok m1 =>
                apply ih m1 e h
                intro x hx
                have hgiff := ((dfs_struct (adjOf edges) fuel).1 k m m1 hk).1 x
                exact hgray x (hgiff.mp hx)
      · rw [if_neg h0] at h
        exact ih m e h hgray

/-- The top-level loop never exhausts fuel exceeding the count of
not-in-progress universe nodes. -/
theorem dfsTop_fuel_sufficient (adj : String → List String) (U : List String)
    (hU : U.Nodup) (hadj : ∀ u v, v ∈ adj u → v ∈ U) (fuel : Nat) :
    ∀ (keys : List String) (m : VMap), (∀ k ∈ keys, k ∈ U) →
      (U.filter (fun x => vget m x ≠ 1)).length < fuel →
      dfsTop adj fuel keys m ≠ none := by
  intro keys
  induction keys with
  | nil =>
      intro m _ _
      rw [dfsTop]
      simp
  | cons k ks ih =>
      intro m hkeys hcount
      rw [dfsTop]
      by_cases h0 : vget m k = 0
      · rw [if_pos h0]
        have hk : dfsA adj fuel k m ≠ none :=
          (dfs_fuel_sufficient adj U hU hadj fuel).1 k m
            (hkeys k (List.mem_cons_self k ks)) hcount
        cases hkr : dfsA adj fuel k m with
        | none => exact absurd hkr hk
        | some r =>
            cases r with
            | error e => simp
            | ok m1 =>
                have hgray := ((dfs_struct adj fuel).1 k m m1 hkr).1
                have hsame : U.filter (fun x => vget m1 x ≠ 1) =
                    U.filter (fun x => vget m x ≠ 1) := by
                  apply List.filter_congr
                  intro x _
                  simp only [ne_eq, hgray x]
                exact ih m1 (fun k2 hk2 => hkeys k2 (List.mem_cons_of_mem k hk2))
                  (by rw [hsame]; exact hcount)
      · rw [if_neg h0]
        exact ih m (fun k2 hk2 => hkeys k2 (List.mem_cons_of_mem k hk2)) hcount

/-- Every nonempty path starts with an edge. -/
theorem pathPos_first_edge (edges : List (String × String)) (a b : String)
    (h : PathPos edges a b) : ∃ c, edgeStep edges a c := by
  induction h with
  | single he => exact ⟨_, he⟩
  | tail _ _ ih => exact ih

/-- Along the topological order, every path strictly decreases the finish
index. -/
theorem pathPos_index_decreases (edges : List (String × String)) (M : VMap)
    (L : List String) (hinv : TopoInv (adjOf edges) M L) (a b : String)
    (h : PathPos edges a b) (ha : a ∈ L) : b ∈ L ∧ L.indexOf b < L.indexOf a := by
  induction h with
  | single he => exact hinv.2.2 _ ha _ ((mem_adjOf edges _ _).mpr he)
  | tail hp he ih =>
      obtain ⟨hbmem, hblt⟩ := ih
      obtain ⟨hcmem, hclt⟩ := hinv.2.2 _ hbmem _ ((mem_adjOf edges _ _).mpr he)
      exact ⟨hcmem, hclt.trans hblt⟩

/-- A graph admitting the topological invariant with every edge source
finished has no cycle. -/
theorem topoInv_no_cycle (nodes : List String) (edges : List (String × String))
    (M : VMap) (L : List String) (hinv : TopoInv (adjOf edges) M L)
    (hkeys : ∀ k ∈ graphKeys nodes edges, vget M k = 2) :
    ¬ ∃ w, PathPos edges w w := by
  rintro ⟨w, hw⟩
  obtain ⟨c, hc⟩ := pathPos_first_edge edges w w hw
  have hwkey : w ∈ graphKeys nodes edges := edge_src_mem_graphKeys nodes edges (w, c) hc
  have hwL : w ∈ L := (hinv.2.1 w).mp (hkeys w hwkey)
  obtain ⟨_, hlt⟩ := pathPos_index_decreases edges M L hinv w w hw hwL
  exact absurd hlt (by simp)

/-- The acyclicity assertion raises the cycle error exactly when the spec
graph has a directed cycle. -/
theorem assertAcyclic_error_iff (s : NetSpec) :
    assertAcyclic s = Except.error (NetErr.invalid NetMsg.cycleDetected) ↔
      specHasCycle s := by
  unfold assertAcyclic specHasCycle
  constructor
  · intro h
    cases htop : dfsTop (adjOf (specEdgePairs s)) (acyclicFuel (specNodeKeys s) (specEdgePairs s))
        (graphKeys (specNodeKeys s) (specEdgePairs s)) [] with
    | none => rw [htop] at h; simp at h
    | some r =>
        cases r with
        | ok m => rw [htop] at h; simp at h
        | error e =>
            exact dfsTop_sound (specEdgePairs s) _ _ [] e htop (fun x => by simp [vget])
  · intro hcyc
    cases htop : dfsTop (adjOf (specEdgePairs s)) (acyclicFuel (specNodeKeys s) (specEdgePairs s))
        (graphKeys (specNodeKeys s) (specEdgePairs s)) [] with
    | none =>
        exfalso
        refine dfsTop_fuel_sufficient (adjOf (specEdgePairs s))
          (nodeUniverse (specNodeKeys s) (specEdgePairs s)) (dedupFirst_nodup _)
          (adj_subset_universe (specNodeKeys s) (specEdgePairs s))
          (acyclicFuel (specNodeKeys s) (specEdgePairs s))
          (graphKeys (specNodeKeys s) (specEdgePairs s)) []
          (graphKeys_subset_universe (specNodeKeys s) (specEdgePairs s)) ?_ htop
        have hfull : (nodeUniverse (specNodeKeys s) (specEdgePairs s)).filter
            (fun x => vget ([] : VMap) x ≠ 1) =
            nodeUniverse (specNodeKeys s) (specEdgePairs s) := by
          apply List.filter_eq_self.mpr
          intro x _
          simp [vget]
        rw [hfull]
        unfold acyclicFuel
        omega
    | some r =>
        cases r with
        | error e => rfl
        | ok m =>
            exfalso
            have hinv0 : TopoInv (adjOf (specEdgePairs s)) ([] : VMap) [] := by
              refine ⟨List.nodup_nil, fun x => ?_, by simp⟩
              simp [vget]
            obtain ⟨L2, hinv2, _, hkeys⟩ := dfsTop_topo (adjOf (specEdgePairs s))
              (acyclicFuel (specNodeKeys s) (specEdgePairs s))
              (graphKeys (specNodeKeys s) (specEdgePairs s)) [] m [] htop hinv0
              (fun x => by simp [vget])
            exact topoInv_no_cycle (specNodeKeys s) (specEdgePairs s) m L2 hinv2 hkeys hcyc

/-- The acyclicity assertion either passes or raises exactly the cycle
error. -/
theorem assertAcyclic_cases (s : NetSpec) :
    assertAcyclic s = Except.ok () ∨
    assertAcyclic s = Except.error (NetErr.invalid NetMsg.cycleDetected) := by
  unfold assertAcyclic
  cases dfsTop (adjOf (specEdgePairs s)) (acyclicFuel (specNodeKeys s) (specEdgePairs s))
      (graphKeys (specNodeKeys s) (specEdgePairs s)) [] with
  | none => exact Or.inl rfl
  | some r =>
      cases r with
      | error e => exact Or.inr rfl
      | ok m => exact Or.inl rfl

/-- The edge-endpoint check never raises the cycle error. -/
theorem checkEdges_ne_cycle (keys : List String) : ∀ es : List EdgeSpec,
    checkEdges keys es ≠ Except.error (NetErr.invalid NetMsg.cycleDetected) := by
  intro es
  induction es with
  | nil => rw [checkEdges]; simp
  | cons e rest ih =>
      rw [checkEdges]
      by_cases hc : (keys.contains e.src && keys.contains e.tgt) = true
      · rw [if_pos hc]; exact ih
      · rw [if_neg hc]; simp

/-- The node-reference check never raises the cycle error. -/
theorem ensureNodeRef_ne_cycle (env : DbEnv) (tenant : String) (n : NodeSpec) :
    ensureNodeRef env tenant n ≠ Except.error (NetErr.invalid NetMsg.cycleDetected) := by
  unfold ensureNodeRef
  cases hag : n.agentId with
  | none =>
      cases hch : n.childNetworkId with
      | none => simp [Bind.bind, Except.bind, pure, Except.pure, throw, throwThe,
          MonadExceptOf.throw, hag, hch]
      | some nid =>
          by_cases hl : networkLive env.networks tenant nid = true
          · simp [Bind.bind, Except.bind, pure, Except.pure, throw, throwThe,
              MonadExceptOf.throw, hag, hch, hl]
          · simp [Bind.bind, Except.bind, pure, Except.pure, throw, throwThe,
              MonadExceptOf.throw, hag, hch, hl]
  | some aid =>
      by_cases hal : agentLive env.agents tenant aid = true
      · cases hch : n.childNetworkId with
        | none => simp [Bind.bind, Except.bind, pure, Except.pure, throw, throwThe,
            MonadExceptOf.throw, hag, hch, hal]
        | some nid =>
            by_cases hl : networkLive env.networks tenant nid = true
            · simp [Bind.bind, Except.bind, pure, Except.pure, throw, throwThe,
                MonadExceptOf.throw, hag, hch, hal, hl]
            · simp [Bind.bind, Except.bind, pure, Except.pure, throw, throwThe,
                MonadExceptOf.throw, hag, hch, hal, hl]
      · simp [Bind.bind, Except.bind, pure, Except.pure, throw, throwThe,
          MonadExceptOf.throw, hag, hal]

/-- The node-reference loop never raises the cycle error. -/
theorem checkRefs_ne_cycle (env : DbEnv) (tenant : String) : ∀ ns : List NodeSpec,
    checkRefs env tenant ns ≠ Except.error (NetErr.invalid NetMsg.cycleDetected) := by
  intro ns
  induction ns with
  | nil => rw [checkRefs]; simp
  | cons n rest ih =>
      rw [checkRefs]
      cases hn : ensureNodeRef env tenant n with
      | error e =>
          simp [Bind.bind, Except.bind, hn]
          intro hc
          rw [hc] at hn
          exact ensureNodeRef_ne_cycle env tenant n hn
      | ok u =>
          cases u
          simp [Bind.bind, Except.bind, hn]
          exact fun hc => ih (by rw [hc])

/-- The swarm-specific validation never raises the cycle error. -/
theorem validateSwarm_ne_cycle (s : NetSpec) :
    validateSwarm s ≠ Except.error (NetErr.invalid NetMsg.cycleDetected) := by
  intro h
  unfold validateSwarm at h
  split at h
  · simp at h
  · split at h
    · simp at h
    · split at h
      · simp at h
      · simp at h

/-- Claim C1: for a non-swarm network spec whose edge endpoints and node
references are otherwise valid, `validate` raises exactly the
`AgentNetworkInvalid` cycle error — detected by the fail-fast three-color
depth-first traversal — if and only if the node/edge graph contains a
directed cycle; a swarm-typed spec never triggers the cycle error at all,
whatever its edges. -/
theorem networkValidateAcyclicity (env : DbEnv) (tenant : String) (s : NetSpec) :
    (s.ntype ≠ "swarm" →
      checkEdges (specNodeKeys s) s.edges = Except.ok () →
      checkRefs env tenant s.nodes = Except.ok () →
      ((validateSpec env tenant s = Except.error (NetErr.invalid NetMsg.cycleDetected)) ↔
        specHasCycle s) ∧
      ((∃ e, validateSpec env tenant s = Except.error e) ↔ specHasCycle s)) ∧
    (s.ntype = "swarm" →
      validateSpec env tenant s ≠ Except.error (NetErr.invalid NetMsg.cycleDetected)) := by
  constructor
  · intro hty hedges hrefs
    have hval : validateSpec env tenant s = assertAcyclic s := by
      unfold validateSpec
      rcases assertAcyclic_cases s with hac | hac <;>
        simp [Bind.bind, Except.bind, hedges, hrefs, hty, hac, pure, Except.pure]
    rw [hval]
    refine ⟨assertAcyclic_error_iff s, ?_, fun hcyc => ⟨_, (assertAcyclic_error_iff s).mpr hcyc⟩⟩
    rintro ⟨e, he⟩
    rcases assertAcyclic_cases s with hac | hac
    · rw [hac] at he
      exact absurd he (by simp)
    · exact (assertAcyclic_error_iff s).mp hac
  · intro hty h
    unfold validateSpec at h
    simp only [Bind.bind, Except.bind] at h
    rw [if_neg (fun hc => hc hty), if_pos hty] at h
    cases hce : checkEdges (specNodeKeys s) s.edges with
    | error e =>
        rw [hce] at h
        simp at h
        rw [h] at hce
        exact checkEdges_ne_cycle (specNodeKeys s) s.edges hce
    | ok u =>
        cases u
        rw [hce] at h
        simp only [pure, Except.pure] at h
        cases hcr : checkRefs env tenant s.nodes with
        | error e =>
            rw [hcr] at h
            simp at h
            rw [h] at hcr
            exact checkRefs_ne_cycle env tenant s.nodes hcr
        | ok u2 =>
            cases u2
            rw [hcr] at h
            exact validateSwarm_ne_cycle s h

/-- Witness for C1: a two-node cycle A→B→A on a standalone network raises
exactly the cycle error, and the same nodes and edges on a swarm network
never produce the cycle error. -/
theorem networkValidateAcyclicityWitness :
    validateSpec
        { agents := [{ id := "a1", tenantId := "t" }, { id := "a2", tenantId := "t" }],
          networks := [] } "t"
        { ntype := "standalone",
          nodes := [{ nodeKey := "A", agentId := some "a1" },
                    { nodeKey := "B", agentId := some "a2" }],
          edges := [{ src := "A", tgt := "B" }, { src := "B", tgt := "A" }] } =
      Except.error (NetErr.invalid NetMsg.cycleDetected) ∧
    validateSpec
        { agents := [{ id := "a1", tenantId := "t" }, { id := "a2", tenantId := "t" }],
          networks := [] } "t"
        { ntype := "swarm",
          nodes := [{ nodeKey := "A", agentId := some "a1" },
                    { nodeKey := "B", agentId := some "a2" }],
          edges := [{ src := "A", tgt := "B" }, { src := "B", tgt := "A" }] } ≠
      Except.error (NetErr.invalid NetMsg.cycleDetected) := by
  constructor
  · exact ((networkValidateAcyclicity
      { agents := [{ id := "a1", tenantId := "t" }, { id := "a2", tenantId := "t" }],
        networks := [] } "t"
      { ntype := "standalone",
        nodes := [{ nodeKey := "A", agentId := some "a1" },
                  { nodeKey := "B", agentId := some "a2" }],
        edges := [{ src := "A", tgt := "B" }, { src := "B", tgt := "A" }] }).1
      (by decide) rfl rfl).1.mpr
      ⟨"A", PathPos.tail
        (PathPos.single (show edgeStep [("A", "B"), ("B", "A")] "A" "B" by unfold edgeStep; decide))
        (show edgeStep [("A", "B"), ("B", "A")] "B" "A" by unfold edgeStep; decide)⟩
  · exact (networkValidateAcyclicity
      { agents := [{ id := "a1", tenantId := "t" }, { id := "a2", tenantId := "t" }],
        networks := [] } "t"
      { ntype := "swarm",
        nodes := [{ nodeKey := "A", agentId := some "a1" },
                  { nodeKey := "B", agentId := some "a2" }],
        edges := [{ src := "A", tgt := "B" }, { src := "B", tgt := "A" }] }).2 rfl
